import Mathlib

/-!
Framebuffer graphics library (`library.c`, `graphics.h`, `driver.c`).

A shallow embedding of the drawing code of the library and a verification of
its rasteriser and compositor.

Memory.

`color_t` is `unsigned short`.  Pixel memory is modelled as a map from cell
addresses to cell values, one cell per `color_t`; a `color_t*` (and the `void*`
it is cast from) is the address of a cell, and `p[i]` is the cell at `p + i`.
The device surface and an off-screen surface are two pointers into the same
memory, so aliasing of the two is expressible.

Integers.

`int` arithmetic in `draw_line` is 32-bit two's complement: the result of each
operation is reduced by `wrap32`.  The loop is verified against the same
computation on mathematical integers, with which it agrees when no operation
overflows.
`xres_virtual`, `yres_virtual` and `line_length` are `__u32` fields of the
kernel structures `fb_var_screeninfo` / `fb_fix_screeninfo`: a comparison or an
arithmetic operation between an `int` and one of them is carried out on
unsigned 32-bit values, which is modelled with explicit reductions modulo
`2^32`.

System.

What the library obtains through system calls is explicit: `World` holds the
screen information reported by the device, the address of the device mapping,
the terminal settings and pixel memory; `getkey` is a function of the result of
`select` and of the byte delivered by `read`.  The flag masks `ICANON` and
`ECHO` of `<termios.h>` are parameters of `init_graphics` and `exit_graphics`.

Loops.

A loop whose termination depends on its data (`draw_line`, the two loops of
`draw`) takes a fuel argument and returns `none` when the fuel runs out; the
theorems give a fuel that suffices.
-/

namespace Graphics

/-! ## Data model -/

/-- Pixel memory: the value held by each `color_t` cell. -/
abbrev Mem := Int → Nat

/-- A `color_t*`: the address of a cell. -/
abbrev Ptr := Int

/-- The assignment `p[0] = v` for `p = a`: one cell changes. -/
def store (m : Mem) (a : Ptr) (v : Nat) : Mem :=
  fun b => if b = a then v else m b

/-- The fields of `struct fb_var_screeninfo` that the library reads (both `__u32`). -/
structure fb_var_screeninfo where
  xres_virtual : Nat
  yres_virtual : Nat

/-- The field of `struct fb_fix_screeninfo` that the library reads (`__u32`). -/
structure fb_fix_screeninfo where
  line_length : Nat

/-- The file-scope variables of `library.c` used by the drawing code. -/
structure Globals where
  size : Int
  varScreenInfo : fb_var_screeninfo
  fixScreenInfo : fb_fix_screeninfo
  frameBuffer : Ptr

/-- The values of type `int` (32-bit two's complement). -/
def InIntRange (z : Int) : Prop := -2 ^ 31 ≤ z ∧ z < 2 ^ 31

instance (z : Int) : Decidable (InIntRange z) := by
  unfold InIntRange; infer_instance

/-- The values of type `__u32`. -/
def InU32Range (n : Nat) : Prop := n < 2 ^ 32

instance (n : Nat) : Decidable (InU32Range n) := by
  unfold InU32Range; infer_instance

/-- Conversion of an `int` to `unsigned int` (usual arithmetic conversions). -/
def toU32 (z : Int) : Nat := (z % 2 ^ 32).toNat

/-- Conversion of an unsigned 32-bit result to `int` (two's complement). -/
def toInt32 (n : Nat) : Int :=
  if n % 2 ^ 32 < 2 ^ 31 then ((n % 2 ^ 32 : Nat) : Int) else ((n % 2 ^ 32 : Nat) : Int) - 2 ^ 32

/-! ## `draw_pixel` -/

/-- The value of `int index = x + (y * varScreenInfo.xres_virtual)`: the sum
is computed on unsigned 32-bit values and converted to `int`. -/
def pixel_index (g : Globals) (x y : Int) : Int :=
  toInt32 (toU32 x + toU32 y * g.varScreenInfo.xres_virtual)

/-- The body of `draw_pixel(img, x, y, color)`: the bounds check, then the
store at `offScreen[index]`. -/
def draw_pixel (g : Globals) (m : Mem) (img : Ptr) (x y : Int) (color : Nat) : Mem :=
  if toU32 y ≥ g.varScreenInfo.yres_virtual ∨ y < 0 ∨ x < 0
      ∨ toU32 x ≥ g.varScreenInfo.xres_virtual then
    m
  else
    store m (img + pixel_index g x y) color

/-! ## `blit` and `clear_screen` -/

/-- The loop of `blit` from the value `i` of its counter:
`for (; i < size/2; i++) frameBuffer[i] = offScreen[i];`. -/
def blit_loop (g : Globals) (offScreen : Ptr) (i : Int) (m : Mem) : Mem :=
  if i < Int.tdiv g.size 2 then
    blit_loop g offScreen (i + 1) (store m (g.frameBuffer + i) (m (offScreen + i)))
  else
    m
termination_by (Int.tdiv g.size 2 - i).toNat
decreasing_by omega

/-- The function `blit(img)`. -/
def blit (g : Globals) (m : Mem) (img : Ptr) : Mem :=
  blit_loop g img 0 m

/-- The loop of `clear_screen` from the value `i` of its counter:
`for (; i < size/2; i++) { frameBuffer[i] = 0; offScreen[i] = 0; }`. -/
def clear_screen_loop (g : Globals) (offScreen : Ptr) (i : Int) (m : Mem) : Mem :=
  if i < Int.tdiv g.size 2 then
    clear_screen_loop g offScreen (i + 1)
      (store (store m (g.frameBuffer + i) 0) (offScreen + i) 0)
  else
    m
termination_by (Int.tdiv g.size 2 - i).toNat
decreasing_by omega

/-- The function `clear_screen(img)`. -/
def clear_screen (g : Globals) (m : Mem) (img : Ptr) : Mem :=
  clear_screen_loop g img 0 m

/-! ## `draw_line` -/

/-- The variables that the loop of `draw_line` updates. -/
structure LineVars where
  x0 : Int
  y0 : Int
  err : Int
deriving DecidableEq

/-- The value of an `int` operation whose mathematical result is `z`: the
result reduced to 32 bits, two's complement. -/
def wrap32 (z : Int) : Int := toInt32 (toU32 z)

/-- The three statements after the `break` test:
`e2 = err; if (e2 > -dx) { err -= dy; x0 += sx; } if (e2 < dy) { err += dx; y0 += sy; }`,
each operation in 32-bit `int`. -/
def line_step (dx dy sx sy : Int) (v : LineVars) : LineVars :=
  let e2 := v.err
  let v1 : LineVars :=
    if e2 > wrap32 (-dx) then { v with err := wrap32 (v.err - dy), x0 := wrap32 (v.x0 + sx) }
    else v
  if e2 < dy then { v1 with err := wrap32 (v1.err + dx), y0 := wrap32 (v1.y0 + sy) } else v1

/-- The loop `for(;;)` of `draw_line`, over an arbitrary effect `plot` standing
for the call of `draw_pixel`; `fuel` bounds the number of iterations, and the
result is `none` when the bound is reached before the `break`. -/
def draw_line_loop {σ : Type} (plot : σ → Int → Int → σ) (x1 y1 dx dy sx sy : Int) :
    Nat → LineVars → σ → Option σ
  | 0, _, _ => none
  | fuel + 1, v, s =>
    let s1 := plot s v.x0 v.y0
    if v.x0 = x1 ∧ v.y0 = y1 then some s1
    else draw_line_loop plot x1 y1 dx dy sx sy fuel (line_step dx dy sx sy v) s1

/-- The declaration `int dx = (x1>x0 ? (x1-x0) : (x0-x1));` (and likewise `dy`),
the subtraction in 32-bit `int`. -/
def line_delta (a0 a1 : Int) : Int := if a1 > a0 then wrap32 (a1 - a0) else wrap32 (a0 - a1)

/-- The declaration `int sx = x0<x1 ? 1 : -1;` (and likewise `sy`). -/
def line_sign (a0 a1 : Int) : Int := if a0 < a1 then 1 else -1

/-- The declaration `int err = (dx>dy ? dx : -dy)/2`; the negation is in 32-bit
`int` and the division of C truncates toward zero. -/
def line_err (dx dy : Int) : Int := Int.tdiv (if dx > dy then dx else wrap32 (-dy)) 2

/-- The body of `draw_line` over an arbitrary effect `plot` for `draw_pixel`. -/
def draw_line_with {σ : Type} (plot : σ → Int → Int → σ) (fuel : Nat) (s : σ)
    (x0 y0 x1 y1 : Int) : Option σ :=
  let dx := line_delta x0 x1
  let dy := line_delta y0 y1
  let sx := line_sign x0 x1
  let sy := line_sign y0 y1
  let err := line_err dx dy
  draw_line_loop plot x1 y1 dx dy sx sy fuel ⟨x0, y0, err⟩ s

/-- The function `draw_line(img, x0, y0, x1, y1, color)` on pixel memory. -/
def draw_line (g : Globals) (fuel : Nat) (m : Mem) (img : Ptr) (x0 y0 x1 y1 : Int)
    (color : Nat) : Option Mem :=
  draw_line_with (fun m x y => draw_pixel g m img x y color) fuel m x0 y0 x1 y1

/-- The sequence of coordinate pairs that `draw_line` passes to `draw_pixel`,
in call order. -/
def draw_line_calls (fuel : Nat) (x0 y0 x1 y1 : Int) : Option (List (Int × Int)) :=
  draw_line_with (fun l x y => l ++ [(x, y)]) fuel [] x0 y0 x1 y1

/-- The loop variables of `draw_line` after `k` iterations that did not break. -/
def line_iter (dx dy sx sy : Int) (v : LineVars) (k : Nat) : LineVars :=
  (line_step dx dy sx sy)^[k] v

/-- The loop variables of `draw_line(_, x0, y0, x1, y1, _)` after `k` iterations
that did not break. -/
def line_vars (x0 y0 x1 y1 : Int) (k : Nat) : LineVars :=
  line_iter (line_delta x0 x1) (line_delta y0 y1) (line_sign x0 x1) (line_sign y0 y1)
    ⟨x0, y0, line_err (line_delta x0 x1) (line_delta y0 y1)⟩ k

/-- The endpoints for which no `int` operation of `draw_line` overflows: the
four coordinates are values of `int`, and the two deltas together are below
`2^31`. -/
def line_fits (x0 y0 x1 y1 : Int) : Prop :=
  InIntRange x0 ∧ InIntRange y0 ∧ InIntRange x1 ∧ InIntRange y1
    ∧ |x1 - x0| + |y1 - y0| < 2 ^ 31

instance (x0 y0 x1 y1 : Int) : Decidable (line_fits x0 y0 x1 y1) := by
  unfold line_fits; infer_instance

/-- The successive calls of `draw_pixel` applied to a memory. -/
def plot_all (g : Globals) (img : Ptr) (color : Nat) (m : Mem) (pts : List (Int × Int)) : Mem :=
  pts.foldl (fun m p => draw_pixel g m img p.1 p.2 color) m

/-! ### The loop of `draw_line` on mathematical integers

The definitions `math_*` below repeat the computation of `draw_line` without
the reduction to 32 bits.  They are the reference against which the loop is
verified: for endpoints that satisfy `line_fits` the two computations agree. -/

/-- The mathematical value of `dx` (and `dy`): `|a1 - a0|`. -/
def math_delta (a0 a1 : Int) : Int := if a1 > a0 then a1 - a0 else a0 - a1

/-- The mathematical value of the initial `err`. -/
def math_err (dx dy : Int) : Int := Int.tdiv (if dx > dy then dx else -dy) 2

/-- The statements after the `break` test, on mathematical integers. -/
def math_step (dx dy sx sy : Int) (v : LineVars) : LineVars :=
  let e2 := v.err
  let v1 : LineVars := if e2 > -dx then { v with err := v.err - dy, x0 := v.x0 + sx } else v
  if e2 < dy then { v1 with err := v1.err + dx, y0 := v1.y0 + sy } else v1

/-- The number of iterations after which the loop of `draw_line` breaks, minus
one: the larger of the two mathematical deltas. -/
def line_len (x0 y0 x1 y1 : Int) : Nat :=
  (max (math_delta x0 x1) (math_delta y0 y1)).toNat

/-- The loop variables after `k` steps on mathematical integers. -/
def math_iter (dx dy sx sy : Int) (v : LineVars) (k : Nat) : LineVars :=
  (math_step dx dy sx sy)^[k] v

/-- The loop variables after `k` steps on mathematical integers, from the
initial values of `draw_line(_, x0, y0, x1, y1, _)`. -/
def math_vars (x0 y0 x1 y1 : Int) (k : Nat) : LineVars :=
  math_iter (math_delta x0 x1) (math_delta y0 y1) (line_sign x0 x1) (line_sign y0 y1)
    ⟨x0, y0, math_err (math_delta x0 x1) (math_delta y0 y1)⟩ k

/-- The loop of `draw_line` with its statements on mathematical integers. -/
def math_draw_line_loop {σ : Type} (plot : σ → Int → Int → σ) (x1 y1 dx dy sx sy : Int) :
    Nat → LineVars → σ → Option σ
  | 0, _, _ => none
  | fuel + 1, v, s =>
    let s1 := plot s v.x0 v.y0
    if v.x0 = x1 ∧ v.y0 = y1 then some s1
    else math_draw_line_loop plot x1 y1 dx dy sx sy fuel (math_step dx dy sx sy v) s1

/-- The body of `draw_line` on mathematical integers, over an effect `plot`. -/
def math_draw_line_with {σ : Type} (plot : σ → Int → Int → σ) (fuel : Nat) (s : σ)
    (x0 y0 x1 y1 : Int) : Option σ :=
  let dx := math_delta x0 x1
  let dy := math_delta y0 y1
  let sx := line_sign x0 x1
  let sy := line_sign y0 y1
  let err := math_err dx dy
  math_draw_line_loop plot x1 y1 dx dy sx sy fuel ⟨x0, y0, err⟩ s

/-- The function `draw_line` on mathematical integers, on pixel memory. -/
def math_draw_line (g : Globals) (fuel : Nat) (m : Mem) (img : Ptr) (x0 y0 x1 y1 : Int)
    (color : Nat) : Option Mem :=
  math_draw_line_with (fun m x y => draw_pixel g m img x y color) fuel m x0 y0 x1 y1

/-- The call sequence of `draw_line` on mathematical integers. -/
def math_draw_line_calls (fuel : Nat) (x0 y0 x1 y1 : Int) : Option (List (Int × Int)) :=
  math_draw_line_with (fun l x y => l ++ [(x, y)]) fuel [] x0 y0 x1 y1

/-- The points of the first `line_len + 1` steps on mathematical integers; for
endpoints that satisfy `line_fits` this is the call sequence of `draw_line`. -/
def line_points (x0 y0 x1 y1 : Int) : List (Int × Int) :=
  (List.range (line_len x0 y0 x1 y1 + 1)).map fun k =>
    ((math_vars x0 y0 x1 y1 k).x0, (math_vars x0 y0 x1 y1 k).y0)

/-- The loop invariant of `draw_line` after `k` iterations: the current point
is `i` steps in x and `j` steps in y away from the start, the error term
accounts for these steps, and the major axis has made exactly `k` steps. -/
def LineInv (x0 y0 dx dy sx sy : Int) (k : Nat) (v : LineVars) : Prop :=
  ∃ i j : Int, 0 ≤ i ∧ i ≤ dx ∧ 0 ≤ j ∧ j ≤ dy ∧
    v.x0 = x0 + sx * i ∧ v.y0 = y0 + sy * j ∧
    v.err = math_err dx dy - i * dy + j * dx ∧
    (dy < dx → i = k ∧ 0 ≤ v.err ∧ v.err < dx) ∧
    (dx ≤ dy → j = k ∧ (-dy < v.err ∨ dy = 0) ∧ v.err ≤ 0)

/-- A geometry of 65536 x 65537 pixels of 16 bits (stride 131072 bytes).  The
byte size `yres_virtual * line_length = 65537 * 131072` is `2^33 + 131072`,
which the 32-bit product reduces to 131072: the surface has 65536 cells. -/
def wideGeometry : Globals :=
  { size := 131072
    varScreenInfo := { xres_virtual := 65536, yres_virtual := 65537 }
    fixScreenInfo := { line_length := 131072 }
    frameBuffer := 0 }

/-- A geometry of 640 x 480 pixels of 16 bits (stride 1280 bytes), with the
device surface at address 0. -/
def vgaGeometry : Globals :=
  { size := 614400
    varScreenInfo := { xres_virtual := 640, yres_virtual := 480 }
    fixScreenInfo := { line_length := 1280 }
    frameBuffer := 0 }

/-! ## `RGB` (graphics.h) -/

/-- The function `RGB(r, g, b)`: `return r << 11 | g << 5 | b;` converted to
`color_t` (16 bits).  The channel arguments range over the non-negative values
of `int`; a left shift of a negative `int`, or one that overflows, is
undefined in C. -/
def RGB (r g b : Nat) : Nat := (((r <<< 11) ||| (g <<< 5)) ||| b) % 2 ^ 16

/-- The red field of a packed colour: bits 15..11. -/
def red_field (p : Nat) : Nat := (p >>> 11) &&& 31

/-- The green field of a packed colour: bits 10..5. -/
def green_field (p : Nat) : Nat := (p >>> 5) &&& 63

/-- The blue field of a packed colour: bits 4..0. -/
def blue_field (p : Nat) : Nat := p &&& 31

/-! ## The key loop of `main` (driver.c) -/

/-- The variables of `main` that the key loop updates. -/
structure DemoState where
  offset : Int
  color : Nat
deriving DecidableEq

/-- The initial values `color = RGB(255, 0, 0)` and `offset = 10`. -/
def main_init : DemoState := { offset := 10, color := RGB 255 0 0 }

/-- The `if`/`else if` chain of the loop body of `main` on the key read; the
Boolean is `true` when the chain executes `break`. -/
def main_key (key : Char) (s : DemoState) : DemoState × Bool :=
  if key = 'q' then (s, true)
  else if key = '+' ∧ s.offset < 100 then ({ s with offset := s.offset + 10 }, false)
  else if key = '-' ∧ s.offset > 10 then ({ s with offset := s.offset - 10 }, false)
  else if key = 'r' then ({ s with color := RGB 255 0 0 }, false)
  else if key = 'b' then ({ s with color := RGB 0 0 255 }, false)
  else if key = 'g' then ({ s with color := RGB 0 255 0 }, false)
  else (s, false)

/-- The variables of `main` after the keys of a finite sequence, the loop
ending at the first `'q'`. -/
def main_keys : List Char → DemoState → DemoState
  | [], s => s
  | key :: keys, s =>
    if (main_key key s).2 then (main_key key s).1 else main_keys keys (main_key key s).1

/-! ## `getkey`, `init_graphics`, `exit_graphics` (library.c) -/

/-- The function `getkey()`, as a function of the value `x` returned by
`select` and of the byte that `read` delivers (`none` when `read` delivers
nothing).  The result is the returned character and whether `read` was called. -/
def getkey (select_result : Int) (read_byte : Option Char) : Char × Bool :=
  let input : Char := '\n'
  if select_result = 1 then
    match read_byte with
    | some c => (c, true)
    | none => (input, true)
  else
    (input, false)

/-- The field of `struct termios` that the library updates (`tcflag_t`, an
unsigned 32-bit word). -/
structure termios where
  c_lflag : Nat
deriving DecidableEq

/-- The operand `~FLAG` of `c_lflag &= ~FLAG`, as an unsigned 32-bit word. -/
def u32_not (flag : Nat) : Nat := 2 ^ 32 - 1 - flag % 2 ^ 32

/-- What the library obtains from the system: the screen information the
frame-buffer device reports, the address at which `mmap` places the device
surface, the settings of the terminal, and pixel memory. -/
structure World where
  fb_var : fb_var_screeninfo
  fb_fix : fb_fix_screeninfo
  fb_map : Ptr
  tty : termios
  mem : Mem

/-- The file-scope variables of `library.c`. -/
structure Statics where
  g : Globals
  terminalSettings : termios

/-- The function `init_graphics()`.  `ICANON` and `ECHO` are the flag masks of
`<termios.h>`.  The two `FBIOGET` requests copy the reported screen
information, `size` is the 32-bit product `yres_virtual * line_length`
converted to `int`, `TCGETS` copies the terminal settings into
`terminalSettings`, the two flags are cleared there, and `TCSETS` copies
`terminalSettings` back to the terminal. -/
def init_graphics (ICANON ECHO : Nat) (w : World) : Statics × World :=
  let size := toInt32 (w.fb_var.yres_virtual * w.fb_fix.line_length)
  let t0 : termios := w.tty
  let t1 : termios := { c_lflag := t0.c_lflag &&& u32_not ICANON }
  let t2 : termios := { c_lflag := t1.c_lflag &&& u32_not ECHO }
  ({ g := { size := size, varScreenInfo := w.fb_var, fixScreenInfo := w.fb_fix,
            frameBuffer := w.fb_map },
     terminalSettings := t2 },
   { w with tty := t2 })

/-- The function `exit_graphics()`: `clear_screen(frameBuffer)`, then `TCGETS`
copies the terminal settings into `terminalSettings`, the two flags are set
there, and `TCSETS` copies `terminalSettings` back to the terminal. -/
def exit_graphics (ICANON ECHO : Nat) (st : Statics) (w : World) : Statics × World :=
  let mem := clear_screen st.g w.mem st.g.frameBuffer
  let t0 : termios := w.tty
  let t1 : termios := { c_lflag := (t0.c_lflag ||| ECHO) % 2 ^ 32 }
  let t2 : termios := { c_lflag := (t1.c_lflag ||| ICANON) % 2 ^ 32 }
  ({ st with terminalSettings := t2 }, { w with tty := t2, mem := mem })

/-- The value of `ICANON` on Linux (octal 0000002). -/
def LINUX_ICANON : Nat := 2

/-- The value of `ECHO` on Linux (octal 0000010). -/
def LINUX_ECHO : Nat := 8

/-! ## `draw` (driver.c) -/

/-- The first loop of `draw` from the value `i` of its counter:
`for (; i < 480; i += offset) draw_line(buffer, 0, i, 639, i, color);`.
`fuel` bounds the iterations of this loop, `line_fuel` those of each
`draw_line`. -/
def draw_rows (g : Globals) (line_fuel : Nat) (buffer : Ptr) (offset : Int) (color : Nat) :
    Nat → Int → Mem → Option Mem
  | 0, _, _ => none
  | fuel + 1, i, m =>
    if i < 480 then
      match draw_line g line_fuel m buffer 0 i 639 i color with
      | none => none
      | some m1 => draw_rows g line_fuel buffer offset color fuel (i + offset) m1
    else some m

/-- The second loop of `draw` from the value `i` of its counter:
`for (; i < 640; i += offset) draw_line(buffer, i, 0, i, 479, color);`. -/
def draw_cols (g : Globals) (line_fuel : Nat) (buffer : Ptr) (offset : Int) (color : Nat) :
    Nat → Int → Mem → Option Mem
  | 0, _, _ => none
  | fuel + 1, i, m =>
    if i < 640 then
      match draw_line g line_fuel m buffer i 0 i 479 color with
      | none => none
      | some m1 => draw_cols g line_fuel buffer offset color fuel (i + offset) m1
    else some m

/-- The function `draw(buffer, offset, color)`; `fuel` bounds the iterations
of each of its loops and of each `draw_line`. -/
def draw (g : Globals) (fuel : Nat) (m : Mem) (buffer : Ptr) (offset : Int) (color : Nat) :
    Option Mem :=
  match draw_rows g fuel buffer offset color fuel 0 m with
  | none => none
  | some m1 => draw_cols g fuel buffer offset color fuel 0 m1

/-- The common shape of the two loops of `draw`:
`for (; i < bound; i += offset) body(i);`, with `fuel` bounding the iterations. -/
def grid_loop (body : Int → Mem → Option Mem) (bound offset : Int) :
    Nat → Int → Mem → Option Mem
  | 0, _, _ => none
  | fuel + 1, i, m =>
    if i < bound then
      match body i m with
      | none => none
      | some m1 => grid_loop body bound offset fuel (i + offset) m1
    else some m

/-- A device that reports 640 x 480 pixels of 8 bits: stride 640 bytes. -/
def world8bpp : World :=
  { fb_var := { xres_virtual := 640, yres_virtual := 480 }
    fb_fix := { line_length := 640 }
    fb_map := 0
    tty := { c_lflag := 0 }
    mem := fun _ => 0 }

/-- A device that reports 65536 x 65537 pixels of 16 bits: stride 131072 bytes. -/
def worldWide : World :=
  { fb_var := { xres_virtual := 65536, yres_virtual := 65537 }
    fb_fix := { line_length := 131072 }
    fb_map := 0
    tty := { c_lflag := 0 }
    mem := fun _ => 0 }

/-- A device that reports 640 x 480 pixels of 16 bits (stride 1280 bytes) and a
terminal with local flags `flags`. -/
def worldVga (flags : Nat) : World :=
  { fb_var := { xres_virtual := 640, yres_virtual := 480 }
    fb_fix := { line_length := 1280 }
    fb_map := 0
    tty := { c_lflag := flags }
    mem := fun _ => 0 }

/-! ## Basic facts -/

theorem toU32_of_nonneg {z : Int} (h0 : 0 ≤ z) (h1 : z < 2 ^ 32) : (toU32 z : Int) = z := by
  unfold toU32
  have h : z % 2 ^ 32 = z := Int.emod_eq_of_lt h0 h1
  rw [h]
  exact Int.toNat_of_nonneg h0

theorem toInt32_of_lt {n : Nat} (h : n < 2 ^ 31) : toInt32 n = (n : Int) := by
  unfold toInt32
  have h2 : n % 2 ^ 32 = n := Nat.mod_eq_of_lt (by omega)
  rw [h2, if_pos h]

theorem store_same (m : Mem) (a : Ptr) (v : Nat) : store m a v a = v := by
  simp [store]

theorem store_other (m : Mem) {a b : Ptr} (v : Nat) (h : b ≠ a) : store m a v b = m b := by
  simp [store, h]

/-- The bounds check of `draw_pixel` on `int` arguments is the mathematical one. -/
theorem draw_pixel_check_iff (g : Globals) {x y : Int}
    (hx : InIntRange x) (hy : InIntRange y) :
    (toU32 y ≥ g.varScreenInfo.yres_virtual ∨ y < 0 ∨ x < 0
        ∨ toU32 x ≥ g.varScreenInfo.xres_virtual)
      ↔ (x < 0 ∨ x ≥ (g.varScreenInfo.xres_virtual : Int) ∨ y < 0
        ∨ y ≥ (g.varScreenInfo.yres_virtual : Int)) := by
  obtain ⟨_, hx2⟩ := hx
  obtain ⟨_, hy2⟩ := hy
  by_cases hx0 : x < 0
  · simp [hx0]
  by_cases hy0 : y < 0
  · simp [hy0]
  have ex := toU32_of_nonneg (z := x) (by omega) (by omega)
  have ey := toU32_of_nonneg (z := y) (by omega) (by omega)
  constructor
  · rintro (h | h | h | h) <;> omega
  · rintro (h | h | h | h)
    · omega
    · right; right; right; omega
    · omega
    · left; omega

/-- An in-range pixel is stored at `img[pixel_index]`. -/
theorem draw_pixel_in_range (g : Globals) (m : Mem) (img : Ptr) {x y : Int} (c : Nat)
    (hx0 : 0 ≤ x) (hx1 : x < g.varScreenInfo.xres_virtual)
    (hy0 : 0 ≤ y) (hy1 : y < g.varScreenInfo.yres_virtual)
    (hx : InIntRange x) (hy : InIntRange y) :
    draw_pixel g m img x y c = store m (img + pixel_index g x y) c := by
  unfold draw_pixel
  rw [if_neg]
  rw [draw_pixel_check_iff g hx hy]
  omega

/-- When the mathematical index is below `2^31` the computed index is exact. -/
theorem pixel_index_exact (g : Globals) {x y : Int} (hx0 : 0 ≤ x) (hy0 : 0 ≤ y)
    (h : x + y * g.varScreenInfo.xres_virtual < 2 ^ 31) (hx : InIntRange x) (hy : InIntRange y) :
    pixel_index g x y = x + y * g.varScreenInfo.xres_virtual := by
  unfold pixel_index
  have ex := toU32_of_nonneg (z := x) hx0 (by have := hx.2; omega)
  have ey := toU32_of_nonneg (z := y) hy0 (by have := hy.2; omega)
  have hcast : ((toU32 x + toU32 y * g.varScreenInfo.xres_virtual : Nat) : Int)
      = x + y * g.varScreenInfo.xres_virtual := by
    push_cast; rw [ex, ey]
  rw [toInt32_of_lt, hcast]
  have : ((toU32 x + toU32 y * g.varScreenInfo.xres_virtual : Nat) : Int) < 2 ^ 31 := by
    rw [hcast]; exact h
  exact_mod_cast this

/-! ## Claims on `draw_pixel` -/

/-- C1: for every geometry, memory, colour and every pair of `int` coordinates
with `x < 0` or `x >= width` or `y < 0` or `y >= height`, `draw_pixel` returns
the memory it was given: no cell of the surface (nor any other cell) changes. -/
theorem draw_pixel_out_of_range_unchanged (g : Globals) (m : Mem) (img : Ptr) (x y : Int)
    (c : Nat) (hx : InIntRange x) (hy : InIntRange y)
    (h : x < 0 ∨ x ≥ (g.varScreenInfo.xres_virtual : Int) ∨ y < 0
      ∨ y ≥ (g.varScreenInfo.yres_virtual : Int)) :
    draw_pixel g m img x y c = m := by
  unfold draw_pixel
  rw [if_pos ((draw_pixel_check_iff g hx hy).mpr h)]

/-- Witness for C1: the point (640, 5) on the 640 x 480 geometry. -/
theorem draw_pixel_out_of_range_unchanged_witness :
    (InIntRange 640 ∧ InIntRange 5
      ∧ ((640 : Int) < 0 ∨ (640 : Int) ≥ (vgaGeometry.varScreenInfo.xres_virtual : Int)
        ∨ (5 : Int) < 0 ∨ (5 : Int) ≥ (vgaGeometry.varScreenInfo.yres_virtual : Int)))
    ∧ draw_pixel vgaGeometry (fun _ => 0) 1000000 640 5 7 = (fun _ => 0) :=
  ⟨by decide,
    draw_pixel_out_of_range_unchanged vgaGeometry (fun _ => 0) 1000000 640 5 7
      (by decide) (by decide) (by decide)⟩

/-! ## The loop of `draw_line` -/

theorem math_step_x0 (dx dy sx sy : Int) (v : LineVars) :
    (math_step dx dy sx sy v).x0 = if v.err > -dx then v.x0 + sx else v.x0 := by
  by_cases h1 : v.err > -dx <;> by_cases h2 : v.err < dy <;> simp [math_step, h1, h2]

theorem math_step_y0 (dx dy sx sy : Int) (v : LineVars) :
    (math_step dx dy sx sy v).y0 = if v.err < dy then v.y0 + sy else v.y0 := by
  by_cases h1 : v.err > -dx <;> by_cases h2 : v.err < dy <;> simp [math_step, h1, h2]

theorem math_step_err (dx dy sx sy : Int) (v : LineVars) :
    (math_step dx dy sx sy v).err
      = (if v.err > -dx then v.err - dy else v.err) + (if v.err < dy then dx else 0) := by
  by_cases h1 : v.err > -dx <;> by_cases h2 : v.err < dy <;> simp [math_step, h1, h2]

theorem math_err_of_lt {dx dy : Int} (hdx : 0 ≤ dx) (h : dy < dx) : math_err dx dy = dx / 2 := by
  unfold math_err
  rw [if_pos h]
  exact Int.tdiv_eq_ediv hdx (by norm_num)

theorem math_err_of_le {dx dy : Int} (hdy : 0 ≤ dy) (h : dx ≤ dy) :
    math_err dx dy = -(dy / 2) := by
  unfold math_err
  rw [if_neg (by omega), Int.neg_tdiv, Int.tdiv_eq_ediv hdy (by norm_num)]

theorem math_delta_nonneg (a0 a1 : Int) : 0 ≤ math_delta a0 a1 := by
  unfold math_delta; split_ifs <;> omega

theorem line_sign_cases (a0 a1 : Int) : line_sign a0 a1 = 1 ∨ line_sign a0 a1 = -1 := by
  unfold line_sign; split_ifs <;> simp

theorem line_target (a0 a1 : Int) : a1 = a0 + line_sign a0 a1 * math_delta a0 a1 := by
  unfold line_sign math_delta; split_ifs <;> omega

theorem axis_in_box (a0 a1 : Int) {i : Int} (h0 : 0 ≤ i) (h1 : i ≤ math_delta a0 a1) :
    min a0 a1 ≤ a0 + line_sign a0 a1 * i ∧ a0 + line_sign a0 a1 * i ≤ max a0 a1 := by
  unfold math_delta at h1
  unfold line_sign
  split_ifs at h1 ⊢ <;> omega

theorem math_delta_eq_abs (a0 a1 : Int) : math_delta a0 a1 = |a1 - a0| := by
  unfold math_delta
  split_ifs with h
  · rw [abs_of_nonneg (by omega)]
  · rw [abs_of_nonpos (by omega)]; omega

theorem LineInv_init (x0 y0 sx sy : Int) {dx dy : Int} (hdx : 0 ≤ dx) (hdy : 0 ≤ dy) :
    LineInv x0 y0 dx dy sx sy 0 ⟨x0, y0, math_err dx dy⟩ := by
  refine ⟨0, 0, le_refl 0, hdx, le_refl 0, hdy, by simp, by simp, by simp, ?_, ?_⟩
  · intro h
    rw [math_err_of_lt hdx h]
    exact ⟨by simp, by show 0 ≤ dx / 2; omega, by show dx / 2 < dx; omega⟩
  · intro h
    rw [math_err_of_le hdy h]
    exact ⟨by simp, by show -dy < -(dy / 2) ∨ dy = 0; omega, by show -(dy / 2) ≤ 0; omega⟩

theorem LineInv_step {x0 y0 dx dy sx sy : Int} (hdx : 0 ≤ dx) (hdy : 0 ≤ dy) {k : Nat}
    {v : LineVars} (h : LineInv x0 y0 dx dy sx sy k v) (hk : (k : Int) < max dx dy) :
    LineInv x0 y0 dx dy sx sy (k + 1) (math_step dx dy sx sy v) := by
  obtain ⟨i, j, hi0, hi1, hj0, hj1, hx, hy, he, hA, hB⟩ := h
  unfold LineInv
  rw [math_step_x0, math_step_y0, math_step_err]
  rcases lt_or_le dy dx with hc | hc
  · -- x is the major axis
    obtain ⟨hik, e0, e1⟩ := hA hc
    have hkdx : (k : Int) < dx := by rwa [max_eq_left hc.le] at hk
    have hE := math_err_of_lt hdx hc
    have hxs : v.err > -dx := by omega
    simp only [if_pos hxs]
    by_cases hys : v.err < dy
    · have hj : j < dy := by
        by_contra hcon
        have hjd : j = dy := by omega
        have hm : 0 ≤ (dx - i - 1) * dy := mul_nonneg (by omega) hdy
        have h2 : 0 ≤ dx / 2 := by omega
        rw [hjd, hE] at he
        nlinarith
      simp only [if_pos hys]
      refine ⟨i + 1, j + 1, by omega, by omega, by omega, by omega, by rw [hx]; ring,
        by rw [hy]; ring, by rw [he]; ring, ?_, ?_⟩
      · intro _; refine ⟨by push_cast; omega, by omega, by omega⟩
      · intro h'; omega
    · simp only [if_neg hys]
      refine ⟨i + 1, j, by omega, by omega, hj0, hj1, by rw [hx]; ring,
        hy, by rw [he]; ring, ?_, ?_⟩
      · intro _; refine ⟨by push_cast; omega, by omega, by omega⟩
      · intro h'; omega
  · -- y is the major axis
    obtain ⟨hjk, e0, e1⟩ := hB hc
    have hkdy : (k : Int) < dy := by rwa [max_eq_right hc] at hk
    have hE := math_err_of_le hdy hc
    have hys : v.err < dy := by omega
    simp only [if_pos hys]
    by_cases hxs : v.err > -dx
    · have hi : i < dx := by
        by_contra hcon
        have hid : i = dx := by omega
        have hm : 0 ≤ dx * (dy - j - 1) := mul_nonneg hdx (by omega)
        have h2 : 0 ≤ dy / 2 := by omega
        rw [hid, hE] at he
        nlinarith
      simp only [if_pos hxs]
      refine ⟨i + 1, j + 1, by omega, by omega, by omega, by omega, by rw [hx]; ring,
        by rw [hy]; ring, by rw [he]; ring, ?_, ?_⟩
      · intro h'; omega
      · intro _; refine ⟨by push_cast; omega, by omega, by omega⟩
    · simp only [if_neg hxs]
      refine ⟨i, j + 1, hi0, hi1, by omega, by omega, hx,
        by rw [hy]; ring, by rw [he]; ring, ?_, ?_⟩
      · intro h'; omega
      · intro _; refine ⟨by push_cast; omega, by omega, by omega⟩

/-- At the last iteration the current point is the target. -/
theorem LineInv_final {x0 y0 dx dy sx sy : Int} (hdx : 0 ≤ dx) (hdy : 0 ≤ dy) {k : Nat}
    {v : LineVars} (h : LineInv x0 y0 dx dy sx sy k v) (hk : (k : Int) = max dx dy) :
    v.x0 = x0 + sx * dx ∧ v.y0 = y0 + sy * dy := by
  obtain ⟨i, j, hi0, hi1, hj0, hj1, hx, hy, he, hA, hB⟩ := h
  rcases lt_or_le dy dx with hc | hc
  · obtain ⟨hik, e0, e1⟩ := hA hc
    rw [max_eq_left hc.le] at hk
    have hE := math_err_of_lt hdx hc
    have hi : i = dx := by omega
    have hj : j = dy := by
      by_contra hcon
      have hm : 0 ≤ (dy - j - 1) * dx := mul_nonneg (by omega) hdx
      rw [hi, hE] at he
      have : 0 ≤ dx / 2 ∧ dx / 2 < dx := by omega
      nlinarith
    rw [hx, hy, hi, hj]; exact ⟨rfl, rfl⟩
  · obtain ⟨hjk, e0, e1⟩ := hB hc
    rw [max_eq_right hc] at hk
    have hE := math_err_of_le hdy hc
    have hj : j = dy := by omega
    have hi : i = dx := by
      by_contra hcon
      have hm : 0 ≤ (dx - i - 1) * dy := mul_nonneg (by omega) hdy
      rw [hj, hE] at he
      have : 0 ≤ dy / 2 ∧ (dy / 2 < dy ∨ dy = 0) := by omega
      rcases this.2 with h2 | h2
      · nlinarith
      · omega
    rw [hx, hy, hi, hj]; exact ⟨rfl, rfl⟩

/-- Before the last iteration the current point is not the target. -/
theorem LineInv_not_final {x0 y0 dx dy sx sy : Int} (hsx : sx = 1 ∨ sx = -1)
    (hsy : sy = 1 ∨ sy = -1) {k : Nat} {v : LineVars}
    (h : LineInv x0 y0 dx dy sx sy k v) (hk : (k : Int) < max dx dy) :
    ¬ (v.x0 = x0 + sx * dx ∧ v.y0 = y0 + sy * dy) := by
  obtain ⟨i, j, hi0, hi1, hj0, hj1, hx, hy, he, hA, hB⟩ := h
  rintro ⟨h1, h2⟩
  rcases lt_or_le dy dx with hc | hc
  · obtain ⟨hik, -, -⟩ := hA hc
    rw [max_eq_left hc.le] at hk
    rw [hx] at h1
    rcases hsx with hs | hs <;> rw [hs] at h1 <;> omega
  · obtain ⟨hjk, -, -⟩ := hB hc
    rw [max_eq_right hc] at hk
    rw [hy] at h2
    rcases hsy with hs | hs <;> rw [hs] at h2 <;> omega

theorem math_iter_succ (dx dy sx sy : Int) (v : LineVars) (k : Nat) :
    math_iter dx dy sx sy v (k + 1) = math_iter dx dy sx sy (math_step dx dy sx sy v) k := by
  unfold math_iter
  exact Function.iterate_succ_apply _ _ _

theorem math_iter_succ_outer (dx dy sx sy : Int) (v : LineVars) (k : Nat) :
    math_iter dx dy sx sy v (k + 1) = math_step dx dy sx sy (math_iter dx dy sx sy v k) := by
  unfold math_iter
  exact Function.iterate_succ_apply' _ _ _

theorem line_len_cast (x0 y0 x1 y1 : Int) :
    (line_len x0 y0 x1 y1 : Int) = max (math_delta x0 x1) (math_delta y0 y1) := by
  unfold line_len
  have h1 := math_delta_nonneg x0 x1
  have h2 := math_delta_nonneg y0 y1
  rw [Int.toNat_of_nonneg (le_max_of_le_left h1)]

/-- The invariant holds at every iteration up to the last one. -/
theorem math_vars_inv (x0 y0 x1 y1 : Int) :
    ∀ k : Nat, k ≤ line_len x0 y0 x1 y1 →
      LineInv x0 y0 (math_delta x0 x1) (math_delta y0 y1) (line_sign x0 x1) (line_sign y0 y1)
        k (math_vars x0 y0 x1 y1 k) := by
  intro k
  induction k with
  | zero => intro _; exact LineInv_init _ _ _ _ (math_delta_nonneg _ _) (math_delta_nonneg _ _)
  | succ k ih =>
    intro hk
    have hlt : (k : Int) < max (math_delta x0 x1) (math_delta y0 y1) := by
      rw [← line_len_cast]; exact_mod_cast hk
    unfold math_vars
    rw [math_iter_succ_outer]
    exact LineInv_step (math_delta_nonneg _ _) (math_delta_nonneg _ _) (ih (by omega)) hlt

theorem math_vars_succ (x0 y0 x1 y1 : Int) (k : Nat) :
    math_vars x0 y0 x1 y1 (k + 1)
      = math_step (math_delta x0 x1) (math_delta y0 y1) (line_sign x0 x1) (line_sign y0 y1)
          (math_vars x0 y0 x1 y1 k) := by
  unfold math_vars
  rw [math_iter_succ_outer]

theorem math_vars_last (x0 y0 x1 y1 : Int) :
    (math_vars x0 y0 x1 y1 (line_len x0 y0 x1 y1)).x0 = x1
      ∧ (math_vars x0 y0 x1 y1 (line_len x0 y0 x1 y1)).y0 = y1 := by
  have h := LineInv_final (math_delta_nonneg x0 x1) (math_delta_nonneg y0 y1)
    (math_vars_inv x0 y0 x1 y1 _ (le_refl _)) (line_len_cast x0 y0 x1 y1)
  rw [← line_target, ← line_target] at h
  exact h

theorem math_vars_not_last (x0 y0 x1 y1 : Int) {k : Nat} (hk : k < line_len x0 y0 x1 y1) :
    ¬ ((math_vars x0 y0 x1 y1 k).x0 = x1 ∧ (math_vars x0 y0 x1 y1 k).y0 = y1) := by
  have hlt : (k : Int) < max (math_delta x0 x1) (math_delta y0 y1) := by
    rw [← line_len_cast]; exact_mod_cast hk
  have h := LineInv_not_final (line_sign_cases x0 x1) (line_sign_cases y0 y1)
    (math_vars_inv x0 y0 x1 y1 k hk.le) hlt
  rw [← line_target, ← line_target] at h
  exact h

/-! ## The call sequence -/

theorem line_points_length (x0 y0 x1 y1 : Int) :
    (line_points x0 y0 x1 y1).length = line_len x0 y0 x1 y1 + 1 := by
  simp [line_points]

theorem line_points_get (x0 y0 x1 y1 : Int) (k : Nat) :
    (line_points x0 y0 x1 y1)[k]?
      = if k ≤ line_len x0 y0 x1 y1 then
          some ((math_vars x0 y0 x1 y1 k).x0, (math_vars x0 y0 x1 y1 k).y0)
        else none := by
  unfold line_points
  rw [List.getElem?_map]
  by_cases h : k ≤ line_len x0 y0 x1 y1
  · rw [if_pos h, List.getElem?_range (by omega)]; rfl
  · rw [if_neg h, List.getElem?_eq_none (by simp; omega)]; rfl

theorem line_points_get_some {x0 y0 x1 y1 : Int} {k : Nat} {p : Int × Int}
    (h : (line_points x0 y0 x1 y1)[k]? = some p) :
    k ≤ line_len x0 y0 x1 y1
      ∧ p = ((math_vars x0 y0 x1 y1 k).x0, (math_vars x0 y0 x1 y1 k).y0) := by
  rw [line_points_get] at h
  by_cases hk : k ≤ line_len x0 y0 x1 y1
  · rw [if_pos hk] at h
    exact ⟨hk, (Option.some.inj h).symm⟩
  · rw [if_neg hk] at h
    exact absurd h (by simp)

theorem line_points_last (x0 y0 x1 y1 : Int) :
    (line_points x0 y0 x1 y1).getLast? = some (x1, y1) := by
  rw [List.getLast?_eq_getElem?, line_points_length, Nat.add_sub_cancel, line_points_get,
    if_pos (le_refl _)]
  have h := math_vars_last x0 y0 x1 y1
  rw [h.1, h.2]

theorem line_points_eq_map (x0 y0 x1 y1 : Int) (f : Nat → Int × Int)
    (h : ∀ k, k ≤ line_len x0 y0 x1 y1 →
      ((math_vars x0 y0 x1 y1 k).x0, (math_vars x0 y0 x1 y1 k).y0) = f k) :
    line_points x0 y0 x1 y1 = (List.range (line_len x0 y0 x1 y1 + 1)).map f := by
  unfold line_points
  apply List.map_congr_left
  intro k hk
  exact h k (by have := List.mem_range.mp hk; omega)

theorem draw_pixel_keeps (g : Globals) (m : Mem) (img : Ptr) (x y : Int) (c : Nat) (a : Ptr)
    (h : m a = c) : draw_pixel g m img x y c a = c := by
  unfold draw_pixel store
  split_ifs <;> simp [h]

theorem plot_all_keeps (g : Globals) (img : Ptr) (c : Nat) (pts : List (Int × Int)) :
    ∀ (m : Mem) (a : Ptr), m a = c → plot_all g img c m pts a = c := by
  induction pts with
  | nil => intro m a h; exact h
  | cons p pts ih =>
    intro m a h
    exact ih _ a (draw_pixel_keeps g m img p.1 p.2 c a h)

/-- After the calls, the cell of every in-range point of the sequence holds the colour. -/
theorem plot_all_mem (g : Globals) (img : Ptr) (c : Nat) (pts : List (Int × Int)) :
    ∀ (m : Mem) (p : Int × Int), p ∈ pts →
      0 ≤ p.1 → p.1 < g.varScreenInfo.xres_virtual →
      0 ≤ p.2 → p.2 < g.varScreenInfo.yres_virtual →
      InIntRange p.1 → InIntRange p.2 →
      plot_all g img c m pts (img + pixel_index g p.1 p.2) = c := by
  induction pts with
  | nil => intro m p hp; exact absurd hp (List.not_mem_nil _)
  | cons q pts ih =>
    intro m p hp hx0 hx1 hy0 hy1 hx hy
    rcases List.mem_cons.mp hp with rfl | hp'
    · refine plot_all_keeps g img c pts (draw_pixel g m img p.1 p.2 c) _ ?_
      rw [draw_pixel_in_range g m img c hx0 hx1 hy0 hy1 hx hy, store_same]
    · exact ih _ p hp' hx0 hx1 hy0 hy1 hx hy

/-- An in-range point whose index is below `2^31` has `int` coordinates. -/
theorem in_range_int {w : Nat} {x y : Int} (hx0 : 0 ≤ x) (hx1 : x < w) (hy0 : 0 ≤ y)
    (h : x + y * w < 2 ^ 31) : InIntRange x ∧ InIntRange y := by
  have hw : (1 : Int) ≤ w := by omega
  have h1 : 0 ≤ y * ((w : Int) - 1) := mul_nonneg hy0 (by omega)
  have h2 : y * ((w : Int) - 1) = y * w - y := by ring
  unfold InIntRange
  refine ⟨⟨by omega, by omega⟩, ⟨by omega, by omega⟩⟩

/-! ## Claims on `draw_pixel` (continued) -/

/-- C2 (as amended): for every geometry and every `(x, y)` with `0 <= x < width`,
`0 <= y < height` whose index `x + y*width` is below `2^31` (so that the 32-bit
index computation is exact), after `draw_pixel(s, x, y, c)` index `x + y*width`
of `s` holds `c` and every other index of `s` holds its previous value. -/
theorem draw_pixel_in_range_writes (g : Globals) (m : Mem) (img : Ptr) (x y : Int) (c : Nat)
    (hx0 : 0 ≤ x) (hx1 : x < g.varScreenInfo.xres_virtual)
    (hy0 : 0 ≤ y) (hy1 : y < g.varScreenInfo.yres_virtual)
    (hidx : x + y * g.varScreenInfo.xres_virtual < 2 ^ 31) :
    draw_pixel g m img x y c (img + (x + y * g.varScreenInfo.xres_virtual)) = c
      ∧ ∀ i : Int, i ≠ x + y * g.varScreenInfo.xres_virtual →
          draw_pixel g m img x y c (img + i) = m (img + i) := by
  obtain ⟨hx, hy⟩ := in_range_int hx0 hx1 hy0 hidx
  rw [draw_pixel_in_range g m img c hx0 hx1 hy0 hy1 hx hy, pixel_index_exact g hx0 hy0 hidx hx hy]
  exact ⟨store_same _ _ _, fun i hi => store_other _ _ (fun h => hi (add_left_cancel h))⟩

/-- Witness for C2: pixel (3, 2) of the 640 x 480 geometry. -/
theorem draw_pixel_in_range_writes_witness :
    ((0 : Int) ≤ 3 ∧ (3 : Int) < vgaGeometry.varScreenInfo.xres_virtual
      ∧ (0 : Int) ≤ 2 ∧ (2 : Int) < vgaGeometry.varScreenInfo.yres_virtual
      ∧ (3 : Int) + 2 * vgaGeometry.varScreenInfo.xres_virtual < 2 ^ 31)
    ∧ draw_pixel vgaGeometry (fun _ => 0) 1000000 3 2 7
        (1000000 + (3 + 2 * vgaGeometry.varScreenInfo.xres_virtual)) = 7
    ∧ ∀ i : Int, i ≠ 3 + 2 * vgaGeometry.varScreenInfo.xres_virtual →
        draw_pixel vgaGeometry (fun _ => 0) 1000000 3 2 7 (1000000 + i)
          = (fun _ => 0) (1000000 + i) :=
  ⟨by decide,
    draw_pixel_in_range_writes vgaGeometry (fun _ => 0) 1000000 3 2 7
      (by decide) (by decide) (by decide) (by decide) (by decide)⟩

/-- C2 fails as stated: on the 65536 x 65537 geometry the pixel `(0, 65536)`
is in range and has index `0 + 65536 * 65536 = 2^32`, which the 32-bit index
computation reduces to 0; after the call index `2^32` of the surface still
holds its old value and index 0, another index, has changed. -/
theorem draw_pixel_index_wrap_counterexample :
    (InU32Range wideGeometry.varScreenInfo.xres_virtual
      ∧ InU32Range wideGeometry.varScreenInfo.yres_virtual
      ∧ InIntRange 0 ∧ InIntRange 65536)
    ∧ ((0 : Int) ≤ 0 ∧ (0 : Int) < wideGeometry.varScreenInfo.xres_virtual
      ∧ (0 : Int) ≤ 65536 ∧ (65536 : Int) < wideGeometry.varScreenInfo.yres_virtual)
    ∧ draw_pixel wideGeometry (fun _ => 0) 1000000 0 65536 1
        (1000000 + (0 + 65536 * wideGeometry.varScreenInfo.xres_virtual)) ≠ 1
    ∧ (0 : Int) ≠ 0 + 65536 * wideGeometry.varScreenInfo.xres_virtual
    ∧ draw_pixel wideGeometry (fun _ => 0) 1000000 0 65536 1 (1000000 + 0)
        ≠ (fun _ => 0) (1000000 + 0) := by
  decide

/-! ## The 32-bit loop and the loop on mathematical integers -/

theorem wrap32_of_range {z : Int} (h : InIntRange z) : wrap32 z = z := by
  obtain ⟨h1, h2⟩ := h
  unfold wrap32 toInt32 toU32
  split_ifs <;> omega

theorem line_iter_succ (dx dy sx sy : Int) (v : LineVars) (k : Nat) :
    line_iter dx dy sx sy v (k + 1) = line_iter dx dy sx sy (line_step dx dy sx sy v) k := by
  unfold line_iter
  exact Function.iterate_succ_apply _ _ _

/-- One 32-bit step is the mathematical step when the operations it performs
do not overflow. -/
theorem line_step_eq_math (dx dy sx sy : Int) (v : LineVars) (h1 : InIntRange (-dx))
    (h2 : v.err > -dx → InIntRange (v.err - dy) ∧ InIntRange (v.x0 + sx))
    (h3 : v.err < dy → InIntRange (math_step dx dy sx sy v).err ∧ InIntRange (v.y0 + sy)) :
    line_step dx dy sx sy v = math_step dx dy sx sy v := by
  have e1 := wrap32_of_range h1
  by_cases c1 : v.err > -dx <;> by_cases c2 : v.err < dy
  · obtain ⟨a1, a2⟩ := h2 c1
    obtain ⟨b1, b2⟩ := h3 c2
    rw [math_step_err, if_pos c1, if_pos c2] at b1
    simp [line_step, math_step, e1, c1, c2, wrap32_of_range a1, wrap32_of_range a2,
      wrap32_of_range b1, wrap32_of_range b2]
  · obtain ⟨a1, a2⟩ := h2 c1
    simp [line_step, math_step, e1, c1, c2, wrap32_of_range a1, wrap32_of_range a2]
  · obtain ⟨b1, b2⟩ := h3 c2
    rw [math_step_err, if_neg c1, if_pos c2] at b1
    simp [line_step, math_step, e1, c1, c2, wrap32_of_range b1, wrap32_of_range b2]
  · simp [line_step, math_step, e1, c1, c2]

/-- For endpoints that fit, the deltas are below `2^31` together. -/
theorem fits_deltas {x0 y0 x1 y1 : Int} (h : line_fits x0 y0 x1 y1) :
    math_delta x0 x1 + math_delta y0 y1 < 2 ^ 31 := by
  rw [math_delta_eq_abs, math_delta_eq_abs]
  exact h.2.2.2.2

/-- For endpoints that fit, the declarations of `draw_line` compute the
mathematical deltas and error term. -/
theorem fits_init {x0 y0 x1 y1 : Int} (h : line_fits x0 y0 x1 y1) :
    line_delta x0 x1 = math_delta x0 x1 ∧ line_delta y0 y1 = math_delta y0 y1
      ∧ line_err (math_delta x0 x1) (math_delta y0 y1)
          = math_err (math_delta x0 x1) (math_delta y0 y1) := by
  have hs := fits_deltas h
  have hx := math_delta_nonneg x0 x1
  have hy := math_delta_nonneg y0 y1
  refine ⟨?_, ?_, ?_⟩
  · unfold line_delta
    unfold math_delta at hs hx hy ⊢
    split_ifs at hs hx hy ⊢ <;> exact wrap32_of_range ⟨by omega, by omega⟩
  · unfold line_delta
    unfold math_delta at hs hx hy ⊢
    split_ifs at hs hx hy ⊢ <;> exact wrap32_of_range ⟨by omega, by omega⟩
  · unfold line_err math_err
    rw [wrap32_of_range (z := -math_delta y0 y1) ⟨by omega, by omega⟩]

/-- For endpoints that fit, the point reached after `i` and `j` steps is a
pair of values of `int`. -/
theorem fits_point {x0 y0 x1 y1 : Int} (h : line_fits x0 y0 x1 y1) {i j : Int}
    (hi0 : 0 ≤ i) (hi1 : i ≤ math_delta x0 x1) (hj0 : 0 ≤ j) (hj1 : j ≤ math_delta y0 y1) :
    InIntRange (x0 + line_sign x0 x1 * i) ∧ InIntRange (y0 + line_sign y0 y1 * j) := by
  obtain ⟨⟨a1, a2⟩, ⟨b1, b2⟩, ⟨c1, c2⟩, ⟨d1, d2⟩, -⟩ := h
  obtain ⟨e1, e2⟩ := axis_in_box x0 x1 hi0 hi1
  obtain ⟨f1, f2⟩ := axis_in_box y0 y1 hj0 hj1
  unfold InIntRange
  refine ⟨⟨?_, ?_⟩, ⟨?_, ?_⟩⟩ <;> omega

/-- For endpoints that fit, every step of the loop before the last iteration is
the mathematical step. -/
theorem fits_step {x0 y0 x1 y1 : Int} (h : line_fits x0 y0 x1 y1) {k : Nat}
    (hk : k < line_len x0 y0 x1 y1) :
    line_step (math_delta x0 x1) (math_delta y0 y1) (line_sign x0 x1) (line_sign y0 y1)
        (math_vars x0 y0 x1 y1 k)
      = math_step (math_delta x0 x1) (math_delta y0 y1) (line_sign x0 x1) (line_sign y0 y1)
          (math_vars x0 y0 x1 y1 k) := by
  have hs := fits_deltas h
  have hx := math_delta_nonneg x0 x1
  have hy := math_delta_nonneg y0 y1
  have hlt : (k : Int) < max (math_delta x0 x1) (math_delta y0 y1) := by
    rw [← line_len_cast]; exact_mod_cast hk
  have inv0 := math_vars_inv x0 y0 x1 y1 k hk.le
  have inv1 := math_vars_inv x0 y0 x1 y1 (k + 1) hk
  rw [math_vars_succ] at inv1
  obtain ⟨i, j, hi0, hi1, hj0, hj1, hx0, hy0, -, hA, hB⟩ := inv0
  obtain ⟨i', j', hi0', hi1', hj0', hj1', hx1, hy1, -, hA', hB'⟩ := inv1
  obtain ⟨px, py⟩ := fits_point h hi0' hi1' hj0' hj1'
  rw [← hx1] at px
  rw [← hy1] at py
  apply line_step_eq_math
  · exact ⟨by omega, by omega⟩
  · intro c1
    rw [math_step_x0, if_pos c1] at px
    refine ⟨?_, px⟩
    rcases lt_or_le (math_delta y0 y1) (math_delta x0 x1) with hc | hc
    · obtain ⟨-, e0, e1⟩ := hA hc
      exact ⟨by omega, by omega⟩
    · obtain ⟨-, -, e1⟩ := hB hc
      exact ⟨by omega, by omega⟩
  · intro c2
    rw [math_step_y0, if_pos c2] at py
    refine ⟨?_, py⟩
    rcases lt_or_le (math_delta y0 y1) (math_delta x0 x1) with hc | hc
    · obtain ⟨-, e0, e1⟩ := hA' hc
      exact ⟨by omega, by omega⟩
    · obtain ⟨-, e0, e1⟩ := hB' hc
      rw [max_eq_right hc] at hlt
      exact ⟨by omega, by omega⟩

/-- Unrolling of the loop on mathematical integers: when the `break` test first
succeeds at iteration `n`, the loop performs `n + 1` calls of `plot`, on the
successive current points, provided the fuel allows `n + 1` iterations. -/
theorem math_draw_line_loop_unroll {σ : Type} (plot : σ → Int → Int → σ)
    (x1 y1 dx dy sx sy : Int) :
    ∀ (n : Nat) (v : LineVars) (s : σ) (fuel : Nat),
      (∀ k, k < n → ¬ ((math_iter dx dy sx sy v k).x0 = x1
        ∧ (math_iter dx dy sx sy v k).y0 = y1)) →
      ((math_iter dx dy sx sy v n).x0 = x1 ∧ (math_iter dx dy sx sy v n).y0 = y1) →
      n + 1 ≤ fuel →
      math_draw_line_loop plot x1 y1 dx dy sx sy fuel v s
        = some (((List.range (n + 1)).map fun k =>
            ((math_iter dx dy sx sy v k).x0, (math_iter dx dy sx sy v k).y0)).foldl
              (fun s p => plot s p.1 p.2) s) := by
  intro n
  induction n with
  | zero =>
    intro v s fuel _ hfin hfuel
    obtain ⟨f, rfl⟩ : ∃ f, fuel = f + 1 := ⟨fuel - 1, by omega⟩
    have hv : math_iter dx dy sx sy v 0 = v := rfl
    rw [hv] at hfin
    rw [math_draw_line_loop]
    simp only [if_pos hfin]
    simp [List.range_succ, hv]
  | succ n ih =>
    intro v s fuel hnot hfin hfuel
    obtain ⟨f, rfl⟩ : ∃ f, fuel = f + 1 := ⟨fuel - 1, by omega⟩
    have hv : math_iter dx dy sx sy v 0 = v := rfl
    have h0 := hnot 0 (Nat.succ_pos n)
    rw [hv] at h0
    have ih' := ih (math_step dx dy sx sy v) (plot s v.x0 v.y0) f
      (fun k hk => by rw [← math_iter_succ]; exact hnot (k + 1) (by omega))
      (by rw [← math_iter_succ]; exact hfin) (by omega)
    rw [math_draw_line_loop]
    simp only [if_neg h0]
    rw [ih', List.range_succ_eq_map (n + 1)]
    simp only [List.map_cons, List.map_map, List.foldl_cons, hv]
    congr 2

/-- Unrolling of the loop: when the `break` test first succeeds at iteration
`n` of the mathematical loop and the 32-bit steps before it are the
mathematical ones, the loop performs `n + 1` calls of `plot`, on the
successive current points, provided the fuel allows `n + 1` iterations. -/
theorem draw_line_loop_unroll {σ : Type} (plot : σ → Int → Int → σ)
    (x1 y1 dx dy sx sy : Int) :
    ∀ (n : Nat) (v : LineVars) (s : σ) (fuel : Nat),
      (∀ k, k < n → ¬ ((math_iter dx dy sx sy v k).x0 = x1
        ∧ (math_iter dx dy sx sy v k).y0 = y1)) →
      ((math_iter dx dy sx sy v n).x0 = x1 ∧ (math_iter dx dy sx sy v n).y0 = y1) →
      (∀ k, k < n → line_step dx dy sx sy (math_iter dx dy sx sy v k)
        = math_step dx dy sx sy (math_iter dx dy sx sy v k)) →
      n + 1 ≤ fuel →
      draw_line_loop plot x1 y1 dx dy sx sy fuel v s
        = some (((List.range (n + 1)).map fun k =>
            ((math_iter dx dy sx sy v k).x0, (math_iter dx dy sx sy v k).y0)).foldl
              (fun s p => plot s p.1 p.2) s) := by
  intro n
  induction n with
  | zero =>
    intro v s fuel _ hfin _ hfuel
    obtain ⟨f, rfl⟩ : ∃ f, fuel = f + 1 := ⟨fuel - 1, by omega⟩
    have hv : math_iter dx dy sx sy v 0 = v := rfl
    rw [hv] at hfin
    rw [draw_line_loop]
    simp only [if_pos hfin]
    simp [List.range_succ, hv]
  | succ n ih =>
    intro v s fuel hnot hfin hstep hfuel
    obtain ⟨f, rfl⟩ : ∃ f, fuel = f + 1 := ⟨fuel - 1, by omega⟩
    have hv : math_iter dx dy sx sy v 0 = v := rfl
    have h0 := hnot 0 (Nat.succ_pos n)
    rw [hv] at h0
    have hs0 := hstep 0 (Nat.succ_pos n)
    rw [hv] at hs0
    have ih' := ih (math_step dx dy sx sy v) (plot s v.x0 v.y0) f
      (fun k hk => by rw [← math_iter_succ]; exact hnot (k + 1) (by omega))
      (by rw [← math_iter_succ]; exact hfin)
      (fun k hk => by rw [← math_iter_succ]; exact hstep (k + 1) (by omega)) (by omega)
    rw [draw_line_loop]
    simp only [if_neg h0]
    rw [hs0, ih', List.range_succ_eq_map (n + 1)]
    simp only [List.map_cons, List.map_map, List.foldl_cons, hv]
    congr 2

/-- The loop does not return when a step leaves the variables unchanged at a
point that is not the target. -/
theorem draw_line_loop_stuck {σ : Type} (plot : σ → Int → Int → σ)
    (x1 y1 dx dy sx sy : Int) (v : LineVars) (hstep : line_step dx dy sx sy v = v)
    (hnot : ¬ (v.x0 = x1 ∧ v.y0 = y1)) :
    ∀ (fuel : Nat) (s : σ), draw_line_loop plot x1 y1 dx dy sx sy fuel v s = none := by
  intro fuel
  induction fuel with
  | zero => intro s; rfl
  | succ f ih =>
    intro s
    rw [draw_line_loop]
    simp only [if_neg hnot]
    rw [hstep]
    exact ih _

/-- The loop does not return when none of its first `n + 1` iterations breaks
and the step of iteration `n` leaves the variables unchanged. -/
theorem draw_line_loop_diverges {σ : Type} (plot : σ → Int → Int → σ)
    (x1 y1 dx dy sx sy : Int) :
    ∀ (n : Nat) (v : LineVars),
      (∀ k, k ≤ n → ¬ ((line_iter dx dy sx sy v k).x0 = x1
        ∧ (line_iter dx dy sx sy v k).y0 = y1)) →
      line_iter dx dy sx sy v (n + 1) = line_iter dx dy sx sy v n →
      ∀ (fuel : Nat) (s : σ), draw_line_loop plot x1 y1 dx dy sx sy fuel v s = none := by
  intro n
  induction n with
  | zero =>
    intro v hnot hstuck
    exact draw_line_loop_stuck plot x1 y1 dx dy sx sy v hstuck (hnot 0 (Nat.le_refl 0))
  | succ n ih =>
    intro v hnot hstuck fuel s
    cases fuel with
    | zero => rfl
    | succ f =>
      have h0 : ¬ (v.x0 = x1 ∧ v.y0 = y1) := hnot 0 (Nat.zero_le _)
      rw [draw_line_loop]
      simp only [if_neg h0]
      refine ih (line_step dx dy sx sy v) ?_ ?_ f _
      · intro k hk
        rw [← line_iter_succ]
        exact hnot (k + 1) (by omega)
      · rw [← line_iter_succ, ← line_iter_succ]
        exact hstuck

/-- The function `draw_line` does not return when none of its first `n + 1`
iterations breaks and the step of iteration `n` leaves the variables
unchanged. -/
theorem draw_line_with_diverges {σ : Type} (plot : σ → Int → Int → σ)
    (x0 y0 x1 y1 : Int) (n : Nat)
    (hnot : ∀ k, k ≤ n → ¬ ((line_vars x0 y0 x1 y1 k).x0 = x1
      ∧ (line_vars x0 y0 x1 y1 k).y0 = y1))
    (hstuck : line_vars x0 y0 x1 y1 (n + 1) = line_vars x0 y0 x1 y1 n) :
    ∀ (fuel : Nat) (s : σ), draw_line_with plot fuel s x0 y0 x1 y1 = none := by
  intro fuel s
  unfold draw_line_with
  exact draw_line_loop_diverges plot x1 y1 _ _ _ _ n _ hnot hstuck fuel s

/-- With fuel for `line_len + 1` iterations `draw_line` on endpoints that fit
returns, having called `plot` on the points of `line_points`, in order. -/
theorem draw_line_with_eq {σ : Type} (plot : σ → Int → Int → σ) (s : σ)
    (x0 y0 x1 y1 : Int) (extra : Nat) (h : line_fits x0 y0 x1 y1) :
    draw_line_with plot (line_len x0 y0 x1 y1 + 1 + extra) s x0 y0 x1 y1
      = some ((line_points x0 y0 x1 y1).foldl (fun s p => plot s p.1 p.2) s) := by
  obtain ⟨ex, ey, ee⟩ := fits_init h
  unfold draw_line_with line_points
  simp only [ex, ey, ee]
  exact draw_line_loop_unroll plot x1 y1 _ _ _ _ (line_len x0 y0 x1 y1) _ s _
    (fun k hk => math_vars_not_last x0 y0 x1 y1 hk) (math_vars_last x0 y0 x1 y1)
    (fun k hk => fits_step h hk) (by omega)

theorem foldl_snoc_eq (l acc : List (Int × Int)) :
    l.foldl (fun (a : List (Int × Int)) p => a ++ [(p.1, p.2)]) acc = acc ++ l := by
  induction l generalizing acc with
  | nil => simp
  | cons p l ih => simp [ih]

/-- With fuel for `line_len + 1` iterations the loop on mathematical integers
returns, for all endpoints, having called `plot` on the points of
`line_points`, in order. -/
theorem math_draw_line_with_eq {σ : Type} (plot : σ → Int → Int → σ) (s : σ)
    (x0 y0 x1 y1 : Int) (extra : Nat) :
    math_draw_line_with plot (line_len x0 y0 x1 y1 + 1 + extra) s x0 y0 x1 y1
      = some ((line_points x0 y0 x1 y1).foldl (fun s p => plot s p.1 p.2) s) := by
  unfold math_draw_line_with line_points
  exact math_draw_line_loop_unroll plot x1 y1 _ _ _ _ (line_len x0 y0 x1 y1) _ s _
    (fun k hk => math_vars_not_last x0 y0 x1 y1 hk) (math_vars_last x0 y0 x1 y1) (by omega)

theorem math_draw_line_calls_eq (x0 y0 x1 y1 : Int) (extra : Nat) :
    math_draw_line_calls (line_len x0 y0 x1 y1 + 1 + extra) x0 y0 x1 y1
      = some (line_points x0 y0 x1 y1) := by
  unfold math_draw_line_calls
  rw [math_draw_line_with_eq, foldl_snoc_eq, List.nil_append]

theorem math_draw_line_eq (g : Globals) (m : Mem) (img : Ptr) (x0 y0 x1 y1 : Int) (c : Nat)
    (extra : Nat) :
    math_draw_line g (line_len x0 y0 x1 y1 + 1 + extra) m img x0 y0 x1 y1 c
      = some (plot_all g img c m (line_points x0 y0 x1 y1)) := by
  unfold math_draw_line plot_all
  rw [math_draw_line_with_eq]

theorem draw_line_calls_eq (x0 y0 x1 y1 : Int) (extra : Nat) (h : line_fits x0 y0 x1 y1) :
    draw_line_calls (line_len x0 y0 x1 y1 + 1 + extra) x0 y0 x1 y1
      = some (line_points x0 y0 x1 y1) := by
  unfold draw_line_calls
  rw [draw_line_with_eq _ _ _ _ _ _ _ h, foldl_snoc_eq, List.nil_append]

theorem draw_line_eq (g : Globals) (m : Mem) (img : Ptr) (x0 y0 x1 y1 : Int) (c : Nat)
    (extra : Nat) (h : line_fits x0 y0 x1 y1) :
    draw_line g (line_len x0 y0 x1 y1 + 1 + extra) m img x0 y0 x1 y1 c
      = some (plot_all g img c m (line_points x0 y0 x1 y1)) := by
  unfold draw_line plot_all
  rw [draw_line_with_eq _ _ _ _ _ _ _ h]

/-! ## Claims on `draw_line` -/

/-- C3: for all integers `x0, y0, x1, y1` small enough that no `int` operation
overflows (`line_fits`) the loop of `draw_line` reaches its `break` after
finitely many iterations (`max(dx, dy) + 1` of them, for every fuel that allows
as many), the point at which it breaks is `(x1, y1)`, and no earlier current
point equals `(x1, y1)`; `draw_line` then returns the memory obtained by its
calls of `draw_pixel`.  With the statements of `draw_line` read on mathematical
integers the same holds for all integers `x0, y0, x1, y1`. -/
theorem draw_line_terminates (g : Globals) (m : Mem) (img : Ptr) (x0 y0 x1 y1 : Int) (c : Nat)
    (extra : Nat) :
    (line_fits x0 y0 x1 y1 →
      ∃ pts : List (Int × Int),
        draw_line_calls (line_len x0 y0 x1 y1 + 1 + extra) x0 y0 x1 y1 = some pts
        ∧ draw_line g (line_len x0 y0 x1 y1 + 1 + extra) m img x0 y0 x1 y1 c
            = some (plot_all g img c m pts)
        ∧ pts.length = line_len x0 y0 x1 y1 + 1
        ∧ pts.getLast? = some (x1, y1)
        ∧ ∀ k, k + 1 < pts.length → pts[k]? ≠ some (x1, y1))
    ∧ ∃ pts : List (Int × Int),
        math_draw_line_calls (line_len x0 y0 x1 y1 + 1 + extra) x0 y0 x1 y1 = some pts
        ∧ math_draw_line g (line_len x0 y0 x1 y1 + 1 + extra) m img x0 y0 x1 y1 c
            = some (plot_all g img c m pts)
        ∧ pts.length = line_len x0 y0 x1 y1 + 1
        ∧ pts.getLast? = some (x1, y1)
        ∧ ∀ k, k + 1 < pts.length → pts[k]? ≠ some (x1, y1) := by
  have hlast : ∀ k, k + 1 < (line_points x0 y0 x1 y1).length →
      (line_points x0 y0 x1 y1)[k]? ≠ some (x1, y1) := by
    intro k hk hget
    rw [line_points_length] at hk
    obtain ⟨_, hp⟩ := line_points_get_some hget
    have h := math_vars_not_last x0 y0 x1 y1 (k := k) (by omega)
    apply h
    have h1 := congrArg Prod.fst hp
    have h2 := congrArg Prod.snd hp
    exact ⟨h1.symm, h2.symm⟩
  constructor
  · intro hfit
    exact ⟨line_points x0 y0 x1 y1, draw_line_calls_eq _ _ _ _ _ hfit,
      draw_line_eq _ _ _ _ _ _ _ _ _ hfit,
      line_points_length _ _ _ _, line_points_last _ _ _ _, hlast⟩
  · exact ⟨line_points x0 y0 x1 y1, math_draw_line_calls_eq _ _ _ _ _,
      math_draw_line_eq _ _ _ _ _ _ _ _ _,
      line_points_length _ _ _ _, line_points_last _ _ _ _, hlast⟩

/-- Witness for C3: the line (-3,2)-(4,5) on the 640 x 480 geometry. -/
theorem draw_line_terminates_witness :
    line_fits (-3) 2 4 5
    ∧ ∃ pts : List (Int × Int),
      draw_line_calls (line_len (-3) 2 4 5 + 1 + 0) (-3) 2 4 5 = some pts
      ∧ draw_line vgaGeometry (line_len (-3) 2 4 5 + 1 + 0) (fun _ => 0) 1000000 (-3) 2 4 5 7
          = some (plot_all vgaGeometry 1000000 7 (fun _ => 0) pts)
      ∧ pts.length = line_len (-3) 2 4 5 + 1
      ∧ pts.getLast? = some (4, 5)
      ∧ ∀ k, k + 1 < pts.length → pts[k]? ≠ some (4, 5) :=
  ⟨by decide,
    (draw_line_terminates vgaGeometry (fun _ => 0) 1000000 (-3) 2 4 5 7 0).1 (by decide)⟩

/-- C8: for every point `(x, y)`, `draw_line(s, x, y, x, y, c)` calls
`draw_pixel` exactly once, with `(x, y)`, and leaves the loop in its first
iteration (one unit of fuel is enough); the resulting memory is that of
`draw_pixel(s, x, y, c)`. -/
theorem draw_line_single_point (g : Globals) (m : Mem) (img : Ptr) (x y : Int) (c : Nat)
    (extra : Nat) :
    draw_line_calls (1 + extra) x y x y = some [(x, y)]
      ∧ draw_line g (1 + extra) m img x y x y c = some (draw_pixel g m img x y c) := by
  have h1 : 1 + extra = extra + 1 := Nat.add_comm _ _
  rw [h1]
  constructor
  · unfold draw_line_calls draw_line_with
    rw [draw_line_loop]
    simp
  · unfold draw_line draw_line_with
    rw [draw_line_loop]
    simp

/-! ## Horizontal, vertical and diagonal lines -/

/-- The positions reached in steps of `line_sign` from `a0`, for at most
`math_delta` steps, are the integers between `a0` and `a1`. -/
theorem axis_positions (a0 a1 t : Int) :
    (∃ k : Nat, k ≤ (math_delta a0 a1).toNat ∧ t = a0 + line_sign a0 a1 * k)
      ↔ (min a0 a1 ≤ t ∧ t ≤ max a0 a1) := by
  unfold math_delta line_sign
  constructor
  · rintro ⟨k, hk, rfl⟩
    split_ifs at hk ⊢ <;> omega
  · rintro ⟨h1, h2⟩
    refine ⟨(|t - a0|).toNat, ?_, ?_⟩
    · split_ifs <;> rcases abs_cases (t - a0) with ⟨e, _⟩ | ⟨e, _⟩ <;> rw [e] <;> omega
    · split_ifs <;> rcases abs_cases (t - a0) with ⟨e, _⟩ | ⟨e, _⟩ <;> rw [e] <;> omega

theorem axis_positions_inj {a0 a1 : Int} {k l : Nat}
    (h : a0 + line_sign a0 a1 * k = a0 + line_sign a0 a1 * l) : k = l := by
  rcases line_sign_cases a0 a1 with hs | hs <;> rw [hs] at h <;> omega

theorem line_len_horizontal (x0 x1 y : Int) :
    line_len x0 y x1 y = (math_delta x0 x1).toNat := by
  have h1 := math_delta_nonneg x0 x1
  have h2 : math_delta y y = 0 := by simp [math_delta]
  unfold line_len
  rw [h2, max_eq_left h1]

theorem line_len_vertical (x y0 y1 : Int) :
    line_len x y0 x y1 = (math_delta y0 y1).toNat := by
  have h1 := math_delta_nonneg y0 y1
  have h2 : math_delta x x = 0 := by simp [math_delta]
  unfold line_len
  rw [h2, max_eq_right h1]

/-- The call sequence of a horizontal line. -/
theorem line_points_horizontal (x0 x1 y : Int) :
    line_points x0 y x1 y
      = (List.range ((math_delta x0 x1).toNat + 1)).map
          fun k : Nat => (x0 + line_sign x0 x1 * (k : Int), y) := by
  rw [line_points_eq_map x0 y x1 y (fun k : Nat => (x0 + line_sign x0 x1 * (k : Int), y)),
    line_len_horizontal]
  intro k hk
  have hinv := math_vars_inv x0 y x1 y k hk
  rw [line_len_horizontal] at hk
  have h2 : math_delta y y = 0 := by simp [math_delta]
  have h1 := math_delta_nonneg x0 x1
  obtain ⟨i, j, hi0, hi1, hj0, hj1, hx, hy, -, hA, hB⟩ := hinv
  rw [h2] at hj1 hA hB
  have hj : j = 0 := by omega
  have hi : i = k := by
    rcases lt_or_le 0 (math_delta x0 x1) with hc | hc
    · exact (hA hc).1
    · omega
  rw [hx, hy, hi, hj]
  simp

/-- The call sequence of a vertical line. -/
theorem line_points_vertical (x y0 y1 : Int) :
    line_points x y0 x y1
      = (List.range ((math_delta y0 y1).toNat + 1)).map
          fun k : Nat => (x, y0 + line_sign y0 y1 * (k : Int)) := by
  rw [line_points_eq_map x y0 x y1 (fun k : Nat => (x, y0 + line_sign y0 y1 * (k : Int))),
    line_len_vertical]
  intro k hk
  have hinv := math_vars_inv x y0 x y1 k hk
  have h2 : math_delta x x = 0 := by simp [math_delta]
  have h1 := math_delta_nonneg y0 y1
  obtain ⟨i, j, hi0, hi1, hj0, hj1, hx, hy, -, hA, hB⟩ := hinv
  rw [h2] at hi1 hA hB
  have hi : i = 0 := by omega
  have hj : j = k := (hB h1).1
  rw [hx, hy, hi, hj]
  simp

/-- C6 (as amended): for `int` values `y`, `x0`, `x1` with `|x1-x0| < 2^31`
(the subtraction that computes `dx` does not overflow), the calls of
`draw_line(s, x0, y, x1, y, c)` are the points `(x, y)` with `min(x0,x1) <= x <= max(x0,x1)`, each once and no
other point; the line (0,0)-(5,0) plots the 6 pixels `x = 0..5`, `y = 0`. -/
theorem draw_line_horizontal (x0 x1 y : Int) (extra : Nat) (hfit : line_fits x0 y x1 y) :
    (∃ pts : List (Int × Int),
      draw_line_calls (line_len x0 y x1 y + 1 + extra) x0 y x1 y = some pts
      ∧ pts.Nodup
      ∧ ∀ p : Int × Int, p ∈ pts ↔ (p.2 = y ∧ min x0 x1 ≤ p.1 ∧ p.1 ≤ max x0 x1))
    ∧ draw_line_calls (6 + extra) 0 0 5 0
        = some [(0, 0), (1, 0), (2, 0), (3, 0), (4, 0), (5, 0)] := by
  constructor
  · refine ⟨line_points x0 y x1 y, draw_line_calls_eq _ _ _ _ _ hfit, ?_, ?_⟩
    · rw [line_points_horizontal]
      refine List.Nodup.map_on ?_ (List.nodup_range _)
      intro k _ l _ h
      exact axis_positions_inj (congrArg Prod.fst h)
    · intro p
      rw [line_points_horizontal, List.mem_map]
      constructor
      · rintro ⟨k, hk, rfl⟩
        have := (axis_positions x0 x1 (x0 + line_sign x0 x1 * (k : Int))).mp
          ⟨k, by have := List.mem_range.mp hk; omega, rfl⟩
        exact ⟨rfl, this⟩
      · rintro ⟨h1, h2⟩
        obtain ⟨k, hk, hk2⟩ := (axis_positions x0 x1 p.1).mpr h2
        refine ⟨k, List.mem_range.mpr (by omega), ?_⟩
        rw [← hk2, ← h1]
  · have h5 : line_len 0 0 5 0 = 5 := by decide
    have h := draw_line_calls_eq 0 0 5 0 extra (by decide)
    rw [h5] at h
    rw [h]
    decide

/-- Witness for C6: the line (7,4)-(2,4). -/
theorem draw_line_horizontal_witness :
    line_fits 7 4 2 4
    ∧ (∃ pts : List (Int × Int),
        draw_line_calls (line_len 7 4 2 4 + 1 + 0) 7 4 2 4 = some pts
        ∧ pts.Nodup
        ∧ ∀ p : Int × Int, p ∈ pts ↔ (p.2 = 4 ∧ min 7 2 ≤ p.1 ∧ p.1 ≤ max 7 2))
    ∧ draw_line_calls (6 + 0) 0 0 5 0
        = some [(0, 0), (1, 0), (2, 0), (3, 0), (4, 0), (5, 0)] :=
  ⟨by decide, draw_line_horizontal 7 2 4 0 (by decide)⟩

/-- C6 fails as stated: for `y = 0`, `x0 = -2147483648` and `x1 = 2147483647`
(values of `int`) the subtraction `x1 - x0` overflows: `dx` is -1 and `err` is
0.  Neither test of an iteration succeeds, every iteration plots
(-2147483648, 0), and `draw_line` does not return. -/
theorem draw_line_horizontal_overflow_counterexample :
    (InIntRange (-2147483648) ∧ InIntRange 0 ∧ InIntRange 2147483647)
    ∧ line_delta (-2147483648) 2147483647 = -1
    ∧ line_vars (-2147483648) 0 2147483647 0 0 = ⟨-2147483648, 0, 0⟩
    ∧ line_vars (-2147483648) 0 2147483647 0 1 = ⟨-2147483648, 0, 0⟩
    ∧ ∀ fuel : Nat, draw_line_calls fuel (-2147483648) 0 2147483647 0 = none :=
  ⟨by decide, by decide, by decide, by decide,
    fun fuel => draw_line_with_diverges _ (-2147483648) 0 2147483647 0 0
      (by decide) (by decide) fuel []⟩

/-- The loop of `clear_screen` stores only zeros. -/
theorem clear_screen_loop_zero_or_old (g : Globals) (off : Ptr) :
    ∀ (n : Nat) (i : Int) (m : Mem), (Int.tdiv g.size 2 - i).toNat = n →
      ∀ a : Ptr, clear_screen_loop g off i m a = 0 ∨ clear_screen_loop g off i m a = m a := by
  intro n
  induction n with
  | zero =>
    intro i m hn a
    rw [clear_screen_loop, if_neg (by omega)]
    exact Or.inr rfl
  | succ n ih =>
    intro i m hn a
    rw [clear_screen_loop, if_pos (by omega)]
    rcases ih (i + 1) _ (by omega) a with h | h
    · exact Or.inl h
    · rw [h]
      unfold store
      split_ifs
      · exact Or.inl rfl
      · exact Or.inl rfl
      · exact Or.inr rfl

/-- The loop of `clear_screen` started at `i` zeroes the cells `i .. size/2 - 1`
of both surfaces. -/
theorem clear_screen_loop_clears (g : Globals) (off : Ptr) :
    ∀ (n : Nat) (i : Int) (m : Mem), (Int.tdiv g.size 2 - i).toNat = n →
      ∀ j : Int, i ≤ j → j < Int.tdiv g.size 2 →
        clear_screen_loop g off i m (g.frameBuffer + j) = 0
          ∧ clear_screen_loop g off i m (off + j) = 0 := by
  intro n
  induction n with
  | zero =>
    intro i m hn j h1 h2
    omega
  | succ n ih =>
    intro i m hn j h1 h2
    rw [clear_screen_loop, if_pos (by omega)]
    rcases eq_or_lt_of_le h1 with rfl | hlt
    · have z1 : store (store m (g.frameBuffer + i) 0) (off + i) 0 (g.frameBuffer + i) = 0 := by
        simp [store]
      have z2 : store (store m (g.frameBuffer + i) 0) (off + i) 0 (off + i) = 0 :=
        store_same _ _ _
      constructor
      · rcases clear_screen_loop_zero_or_old g off n (i + 1) _ (by omega) (g.frameBuffer + i)
          with h | h
        · exact h
        · rw [h, z1]
      · rcases clear_screen_loop_zero_or_old g off n (i + 1) _ (by omega) (off + i) with h | h
        · exact h
        · rw [h, z2]
    · exact ih (i + 1) _ (by omega) j (by omega) h2

/-- The loop of `blit` started at `i >= 0`, when the two surfaces have no cell
in common: the cells `i .. size/2 - 1` of the device surface receive the
off-screen values, every other cell is unchanged. -/
theorem blit_loop_spec (g : Globals) (off : Ptr)
    (hdis : ∀ j k : Int, 0 ≤ j → j < Int.tdiv g.size 2 → 0 ≤ k → k < Int.tdiv g.size 2 →
      g.frameBuffer + j ≠ off + k) :
    ∀ (n : Nat) (i : Int) (m : Mem), 0 ≤ i → (Int.tdiv g.size 2 - i).toNat = n →
      (∀ j : Int, i ≤ j → j < Int.tdiv g.size 2 →
        blit_loop g off i m (g.frameBuffer + j) = m (off + j))
      ∧ (∀ a : Ptr, (∀ j : Int, i ≤ j → j < Int.tdiv g.size 2 → a ≠ g.frameBuffer + j) →
        blit_loop g off i m a = m a) := by
  intro n
  induction n with
  | zero =>
    intro i m hi hn
    constructor
    · intro j h1 h2; omega
    · intro a _
      rw [blit_loop, if_neg (by omega)]
  | succ n ih =>
    intro i m hi hn
    have hlt : i < Int.tdiv g.size 2 := by omega
    obtain ⟨iha, ihb⟩ := ih (i + 1) (store m (g.frameBuffer + i) (m (off + i))) (by omega)
      (by omega)
    constructor
    · intro j h1 h2
      rw [blit_loop, if_pos hlt]
      rcases eq_or_lt_of_le h1 with rfl | hlt'
      · rw [ihb (g.frameBuffer + i) (fun j hj _ h => by
          have e : @Eq Int _ _ := add_left_cancel h
          omega),
          store_same]
      · rw [iha j (by omega) h2, store_other]
        exact fun h => hdis i j hi hlt (by omega) h2 h.symm
    · intro a ha
      rw [blit_loop, if_pos hlt, ihb a (fun j hj hj2 => ha j (by omega) hj2), store_other]
      exact ha i (le_refl _) hlt

/-- C9: after `clear_screen(img)` every index `i` with `0 <= i < size/2` of the
device surface and of the given surface holds zero, whatever the two surfaces
held before and wherever `img` points; in particular when `img` is the device
surface itself, as in `exit_graphics`. -/
theorem clear_screen_zeroes (g : Globals) (m : Mem) (img : Ptr) (i : Int)
    (h0 : 0 ≤ i) (h1 : i < Int.tdiv g.size 2) :
    clear_screen g m img (g.frameBuffer + i) = 0
      ∧ clear_screen g m img (img + i) = 0
      ∧ clear_screen g m g.frameBuffer (g.frameBuffer + i) = 0 :=
  ⟨(clear_screen_loop_clears g img _ 0 m rfl i h0 h1).1,
    (clear_screen_loop_clears g img _ 0 m rfl i h0 h1).2,
    (clear_screen_loop_clears g g.frameBuffer _ 0 m rfl i h0 h1).1⟩

/-- Witness for C9: index 5 on the 640 x 480 geometry, memory initially all 9. -/
theorem clear_screen_zeroes_witness :
    ((0 : Int) ≤ 5 ∧ (5 : Int) < Int.tdiv vgaGeometry.size 2)
    ∧ clear_screen vgaGeometry (fun _ => 9) 1000000 (vgaGeometry.frameBuffer + 5) = 0
    ∧ clear_screen vgaGeometry (fun _ => 9) 1000000 (1000000 + 5) = 0
    ∧ clear_screen vgaGeometry (fun _ => 9) vgaGeometry.frameBuffer
        (vgaGeometry.frameBuffer + 5) = 0 :=
  ⟨by decide, clear_screen_zeroes vgaGeometry (fun _ => 9) 1000000 5 (by decide) (by decide)⟩

/-- C10: when the off-screen surface at `img` has no cell in common with the
device surface, after `blit(img)` every index `i` with `0 <= i < size/2` of the
device surface holds the value the off-screen surface held at `i`, and the
off-screen surface is unchanged. -/
theorem blit_copies (g : Globals) (m : Mem) (img : Ptr)
    (hdis : ∀ j k : Int, 0 ≤ j → j < Int.tdiv g.size 2 → 0 ≤ k → k < Int.tdiv g.size 2 →
      g.frameBuffer + j ≠ img + k)
    (i : Int) (h0 : 0 ≤ i) (h1 : i < Int.tdiv g.size 2) :
    blit g m img (g.frameBuffer + i) = m (img + i)
      ∧ blit g m img (img + i) = m (img + i) := by
  obtain ⟨ha, hb⟩ := blit_loop_spec g img hdis _ 0 m (le_refl 0) rfl
  exact ⟨ha i h0 h1, hb (img + i) (fun j hj hj2 h => hdis j i hj hj2 h0 h1 h.symm)⟩

/-- On the 640 x 480 geometry a surface at cell 1000000 shares no cell with
the device surface. -/
theorem vga_surfaces_disjoint :
    ∀ j k : Int, 0 ≤ j → j < Int.tdiv vgaGeometry.size 2 → 0 ≤ k →
      k < Int.tdiv vgaGeometry.size 2 → vgaGeometry.frameBuffer + j ≠ 1000000 + k := by
  have hs : Int.tdiv vgaGeometry.size 2 = 307200 := by decide
  have hf : vgaGeometry.frameBuffer = 0 := rfl
  intro j k _ hj hk _ h
  rw [hs] at hj
  rw [hf] at h
  have h' : (0 : Int) + j = 1000000 + k := h
  omega

/-- Witness for C10: index 5 on the 640 x 480 geometry, off-screen surface at
cell 1000000. -/
theorem blit_copies_witness :
    ((∀ j k : Int, 0 ≤ j → j < Int.tdiv vgaGeometry.size 2 → 0 ≤ k →
        k < Int.tdiv vgaGeometry.size 2 → vgaGeometry.frameBuffer + j ≠ 1000000 + k)
      ∧ (0 : Int) ≤ 5 ∧ (5 : Int) < Int.tdiv vgaGeometry.size 2)
    ∧ blit vgaGeometry (fun a => a.toNat) 1000000 (vgaGeometry.frameBuffer + 5)
        = (fun a : Int => a.toNat) (1000000 + 5)
    ∧ blit vgaGeometry (fun a => a.toNat) 1000000 (1000000 + 5)
        = (fun a : Int => a.toNat) (1000000 + 5) :=
  ⟨⟨vga_surfaces_disjoint, by decide, by decide⟩,
    blit_copies vgaGeometry (fun a => a.toNat) 1000000 vga_surfaces_disjoint
      5 (by decide) (by decide)⟩

/-! ## Claims on `RGB` -/

/-- For channels within their fields the bitwise-or of `RGB` is a sum. -/
theorem RGB_eq_sum {r g b : Nat} (hr : r < 32) (hg : g < 64) (hb : b < 32) :
    RGB r g b = r * 2048 + g * 32 + b := by
  unfold RGB
  rw [Nat.shiftLeft_eq, Nat.shiftLeft_eq, Nat.lor_assoc]
  have h1 : g * 2 ^ 5 ||| b = 2 ^ 5 * g + b := by
    rw [Nat.mul_comm]; exact (Nat.mul_add_lt_is_or (by omega) g).symm
  have h2 : r * 2 ^ 11 ||| (2 ^ 5 * g + b) = 2 ^ 11 * r + (2 ^ 5 * g + b) := by
    rw [Nat.mul_comm]; exact (Nat.mul_add_lt_is_or (by omega) r).symm
  rw [h1, h2]
  omega

/-- C11: for all channel triples with `r < 32`, `g < 64`, `b < 32` the packed
colour `p = RGB(r, g, b)` is invertible: `(p >> 11) & 31 = r`,
`(p >> 5) & 63 = g` and `p & 31 = b`. -/
theorem RGB_fields_invert (r g b : Nat) (hr : r < 32) (hg : g < 64) (hb : b < 32) :
    (RGB r g b >>> 11) &&& 31 = r ∧ (RGB r g b >>> 5) &&& 63 = g ∧ RGB r g b &&& 31 = b := by
  rw [RGB_eq_sum hr hg hb]
  have e31 : (31 : Nat) = 2 ^ 5 - 1 := by norm_num
  have e63 : (63 : Nat) = 2 ^ 6 - 1 := by norm_num
  rw [e31, e63, Nat.and_pow_two_sub_one_eq_mod, Nat.and_pow_two_sub_one_eq_mod,
    Nat.and_pow_two_sub_one_eq_mod, Nat.shiftRight_eq_div_pow, Nat.shiftRight_eq_div_pow]
  refine ⟨?_, ?_, ?_⟩ <;> omega

/-- Witness for C11: the triple (21, 42, 13). -/
theorem RGB_fields_invert_witness :
    ((21 : Nat) < 32 ∧ (42 : Nat) < 64 ∧ (13 : Nat) < 32)
    ∧ (RGB 21 42 13 >>> 11) &&& 31 = 21 ∧ (RGB 21 42 13 >>> 5) &&& 63 = 42
    ∧ RGB 21 42 13 &&& 31 = 13 :=
  ⟨by decide, RGB_fields_invert 21 42 13 (by decide) (by decide) (by decide)⟩

/-- C12: for all non-negative channel values `RGB(r, g, b)` is
`(r * 2048) | (g * 32) | b` reduced modulo `2^16`, no channel being clamped;
`RGB(255, 0, 0)` is `0xF800`. -/
theorem RGB_packs (r g b : Nat) :
    RGB r g b = (((r * 2048) ||| (g * 32)) ||| b) % 2 ^ 16 ∧ RGB 255 0 0 = 0xF800 := by
  constructor
  · unfold RGB
    rw [Nat.shiftLeft_eq, Nat.shiftLeft_eq]
  · decide

/-! ## Claims on the key loop of `main` -/

/-- The `if`/`else if` chain of `main` with arbitrary colour values: its effect
on the offset. -/
theorem key_chain_offset (key : Char) (s : DemoState) (cr cb cg : Nat) :
    (if key = 'q' then (s, true)
      else if key = '+' ∧ s.offset < 100 then ({ s with offset := s.offset + 10 }, false)
      else if key = '-' ∧ s.offset > 10 then ({ s with offset := s.offset - 10 }, false)
      else if key = 'r' then ({ s with color := cr }, false)
      else if key = 'b' then ({ s with color := cb }, false)
      else if key = 'g' then ({ s with color := cg }, false)
      else (s, false)).1.offset
      = if key = '+' ∧ s.offset < 100 then s.offset + 10
        else if key = '-' ∧ s.offset > 10 then s.offset - 10
        else s.offset := by
  by_cases hq : key = 'q'
  · subst hq
    simp
  · rw [if_neg hq]
    split_ifs <;> rfl

/-- The offset after one key, whatever the key. -/
theorem main_key_offset (key : Char) (s : DemoState) :
    (main_key key s).1.offset
      = if key = '+' ∧ s.offset < 100 then s.offset + 10
        else if key = '-' ∧ s.offset > 10 then s.offset - 10
        else s.offset :=
  key_chain_offset key s _ _ _

theorem main_key_inv (key : Char) (s : DemoState)
    (h : 10 ≤ s.offset ∧ s.offset ≤ 100 ∧ s.offset % 10 = 0) :
    10 ≤ (main_key key s).1.offset ∧ (main_key key s).1.offset ≤ 100
      ∧ (main_key key s).1.offset % 10 = 0 := by
  rw [main_key_offset]
  obtain ⟨h1, h2, h3⟩ := h
  split_ifs with a b
  · omega
  · omega
  · exact ⟨h1, h2, h3⟩

theorem main_keys_inv (keys : List Char) :
    ∀ s : DemoState, (10 ≤ s.offset ∧ s.offset ≤ 100 ∧ s.offset % 10 = 0) →
      10 ≤ (main_keys keys s).offset ∧ (main_keys keys s).offset ≤ 100
        ∧ (main_keys keys s).offset % 10 = 0 := by
  induction keys with
  | nil => intro s h; exact h
  | cons key keys ih =>
    intro s h
    unfold main_keys
    split_ifs
    · exact main_key_inv key s h
    · exact ih _ (main_key_inv key s h)

/-- C16: in the key loop of the demo, after every finite sequence of keys the
spacing `offset` is a multiple of 10 with `10 <= offset <= 100`; from such a
state `'+'` adds 10 when `offset < 100` and leaves it at 100 otherwise, `'-'`
subtracts 10 when `offset > 10` and leaves it at 10 otherwise, and every other
key leaves it unchanged. -/
theorem main_offset_invariant (keys : List Char) :
    (10 ≤ (main_keys keys main_init).offset ∧ (main_keys keys main_init).offset ≤ 100
      ∧ (main_keys keys main_init).offset % 10 = 0)
    ∧ (main_key '+' (main_keys keys main_init)).1.offset
        = (if (main_keys keys main_init).offset < 100
            then (main_keys keys main_init).offset + 10 else 100)
    ∧ (main_key '-' (main_keys keys main_init)).1.offset
        = (if (main_keys keys main_init).offset > 10
            then (main_keys keys main_init).offset - 10 else 10)
    ∧ ∀ key : Char, key ≠ '+' → key ≠ '-' →
        (main_key key (main_keys keys main_init)).1.offset
          = (main_keys keys main_init).offset := by
  have hinv := main_keys_inv keys main_init (by decide)
  obtain ⟨h1, h2, h3⟩ := hinv
  refine ⟨⟨h1, h2, h3⟩, ?_, ?_, ?_⟩
  · rw [main_key_offset]
    have e : ('+' : Char) ≠ '-' := by decide
    by_cases h : (main_keys keys main_init).offset < 100
    · rw [if_pos ⟨rfl, h⟩, if_pos h]
    · rw [if_neg (fun x => h x.2), if_neg (fun x => e x.1), if_neg h]
      omega
  · rw [main_key_offset]
    have e : ('-' : Char) ≠ '+' := by decide
    by_cases h : (main_keys keys main_init).offset > 10
    · rw [if_neg (fun x => e x.1), if_pos ⟨rfl, h⟩, if_pos h]
    · rw [if_neg (fun x => e x.1), if_neg (fun x => h x.2), if_neg h]
      omega
  · intro key hp hm
    rw [main_key_offset, if_neg (fun h => hp h.1), if_neg (fun h => hm h.1)]

/-- Witness for C16: the key sequence `+ + - x`, then the key `r`. -/
theorem main_offset_invariant_witness :
    ('r' ≠ '+' ∧ 'r' ≠ '-')
    ∧ (main_key 'r' (main_keys ['+', '+', '-', 'x'] main_init)).1.offset
        = (main_keys ['+', '+', '-', 'x'] main_init).offset :=
  ⟨by decide, (main_offset_invariant ['+', '+', '-', 'x']).2.2.2 'r' (by decide) (by decide)⟩

/-! ## Claims on the geometry, the terminal and `getkey` -/

/-- C13 (as amended): for every reported geometry with `line_length >= 2 *
xres_virtual` (rows of at least 16 bits per pixel) and `yres_virtual *
line_length < 2^31` (so that `size` holds the byte size), every `int` pair
`(x, y)` that passes the bounds check of `draw_pixel` is written at index
`x + y*width`, and `0 <= x + y*width < size/2`. -/
theorem draw_pixel_index_in_surface (ICANON ECHO : Nat) (w : World) (x y : Int)
    (hstride : 2 * w.fb_var.xres_virtual ≤ w.fb_fix.line_length)
    (hsize : w.fb_var.yres_virtual * w.fb_fix.line_length < 2 ^ 31)
    (hx : InIntRange x) (hy : InIntRange y)
    (hcheck : ¬ (toU32 y ≥ (init_graphics ICANON ECHO w).1.g.varScreenInfo.yres_virtual
      ∨ y < 0 ∨ x < 0
      ∨ toU32 x ≥ (init_graphics ICANON ECHO w).1.g.varScreenInfo.xres_virtual)) :
    pixel_index (init_graphics ICANON ECHO w).1.g x y = x + y * w.fb_var.xres_virtual
      ∧ 0 ≤ x + y * w.fb_var.xres_virtual
      ∧ x + y * w.fb_var.xres_virtual < Int.tdiv (init_graphics ICANON ECHO w).1.g.size 2 := by
  rw [draw_pixel_check_iff _ hx hy] at hcheck
  have hg : (init_graphics ICANON ECHO w).1.g.varScreenInfo = w.fb_var := rfl
  have hs : (init_graphics ICANON ECHO w).1.g.size
      = ((w.fb_var.yres_virtual * w.fb_fix.line_length : Nat) : Int) := by
    show toInt32 _ = _
    exact toInt32_of_lt hsize
  rw [hg] at hcheck
  have hx0 : 0 ≤ x := by omega
  have hy0 : 0 ≤ y := by omega
  have hx1 : x < w.fb_var.xres_virtual := by omega
  have hy1 : y < w.fb_var.yres_virtual := by omega
  have h1 : y * w.fb_var.xres_virtual ≤ ((w.fb_var.yres_virtual : Int) - 1) * w.fb_var.xres_virtual :=
    mul_le_mul_of_nonneg_right (by omega) (by omega)
  have h2 : ((w.fb_var.yres_virtual : Int) - 1) * w.fb_var.xres_virtual
      = (w.fb_var.yres_virtual : Int) * w.fb_var.xres_virtual - w.fb_var.xres_virtual := by ring
  have h3 : 0 ≤ y * (w.fb_var.xres_virtual : Int) := mul_nonneg hy0 (by omega)
  have h4 : w.fb_var.yres_virtual * (2 * w.fb_var.xres_virtual)
      ≤ w.fb_var.yres_virtual * w.fb_fix.line_length := Nat.mul_le_mul_left _ hstride
  have h5 : (2 : Int) * ((w.fb_var.yres_virtual : Int) * w.fb_var.xres_virtual)
      ≤ ((w.fb_var.yres_virtual * w.fb_fix.line_length : Nat) : Int) := by
    have : ((w.fb_var.yres_virtual * (2 * w.fb_var.xres_virtual) : Nat) : Int)
        ≤ ((w.fb_var.yres_virtual * w.fb_fix.line_length : Nat) : Int) := by exact_mod_cast h4
    push_cast at this ⊢
    linarith
  have h6 : (((w.fb_var.yres_virtual * w.fb_fix.line_length : Nat) : Int)) < 2 ^ 31 := by
    exact_mod_cast hsize
  have hidx : x + y * (w.fb_var.xres_virtual : Int) < 2 ^ 31 := by omega
  refine ⟨?_, by omega, ?_⟩
  · have := pixel_index_exact (init_graphics ICANON ECHO w).1.g hx0 hy0
      (by rw [hg]; exact hidx) hx hy
    rw [hg] at this
    exact this
  · rw [hs, Int.tdiv_eq_ediv (by omega) (by norm_num)]
    omega

/-- Witness for C13: pixel (639, 479) of the 640 x 480 geometry of 16 bits. -/
theorem draw_pixel_index_in_surface_witness :
    (2 * (worldVga 0).fb_var.xres_virtual ≤ (worldVga 0).fb_fix.line_length
      ∧ (worldVga 0).fb_var.yres_virtual * (worldVga 0).fb_fix.line_length < 2 ^ 31
      ∧ InIntRange 639 ∧ InIntRange 479
      ∧ ¬ (toU32 479 ≥ (init_graphics LINUX_ICANON LINUX_ECHO (worldVga 0)).1.g.varScreenInfo.yres_virtual
        ∨ (479 : Int) < 0 ∨ (639 : Int) < 0
        ∨ toU32 639
          ≥ (init_graphics LINUX_ICANON LINUX_ECHO (worldVga 0)).1.g.varScreenInfo.xres_virtual))
    ∧ pixel_index (init_graphics LINUX_ICANON LINUX_ECHO (worldVga 0)).1.g 639 479
        = 639 + 479 * (worldVga 0).fb_var.xres_virtual
    ∧ (0 : Int) ≤ 639 + 479 * (worldVga 0).fb_var.xres_virtual
    ∧ (639 : Int) + 479 * (worldVga 0).fb_var.xres_virtual
        < Int.tdiv (init_graphics LINUX_ICANON LINUX_ECHO (worldVga 0)).1.g.size 2 :=
  ⟨by decide,
    draw_pixel_index_in_surface LINUX_ICANON LINUX_ECHO (worldVga 0) 639 479
      (by decide) (by decide) (by decide) (by decide) (by decide)⟩

/-- C13 fails as stated.  On a device reporting 640 x 480 with stride 640
(8 bits per pixel) `size/2` is 153600 and the pixel (0, 240) passes the bounds
check with index 153600.  On a device reporting 65536 x 65537 with stride
131072 the 32-bit product gives `size = 131072`, and the pixel (0, 1) passes
the bounds check with index 65536 = `size/2`. -/
theorem draw_pixel_index_outside_counterexample :
    (InU32Range world8bpp.fb_var.xres_virtual ∧ InU32Range world8bpp.fb_var.yres_virtual
      ∧ InU32Range world8bpp.fb_fix.line_length ∧ InIntRange 0 ∧ InIntRange 240
      ∧ ¬ (toU32 240 ≥ (init_graphics LINUX_ICANON LINUX_ECHO world8bpp).1.g.varScreenInfo.yres_virtual
        ∨ (240 : Int) < 0 ∨ (0 : Int) < 0
        ∨ toU32 0 ≥ (init_graphics LINUX_ICANON LINUX_ECHO world8bpp).1.g.varScreenInfo.xres_virtual)
      ∧ pixel_index (init_graphics LINUX_ICANON LINUX_ECHO world8bpp).1.g 0 240
          = 0 + 240 * world8bpp.fb_var.xres_virtual
      ∧ ¬ ((0 : Int) + 240 * world8bpp.fb_var.xres_virtual
          < Int.tdiv (init_graphics LINUX_ICANON LINUX_ECHO world8bpp).1.g.size 2))
    ∧ (InU32Range worldWide.fb_var.xres_virtual ∧ InU32Range worldWide.fb_var.yres_virtual
      ∧ InU32Range worldWide.fb_fix.line_length ∧ InIntRange 0 ∧ InIntRange 1
      ∧ ¬ (toU32 1 ≥ (init_graphics LINUX_ICANON LINUX_ECHO worldWide).1.g.varScreenInfo.yres_virtual
        ∨ (1 : Int) < 0 ∨ (0 : Int) < 0
        ∨ toU32 0 ≥ (init_graphics LINUX_ICANON LINUX_ECHO worldWide).1.g.varScreenInfo.xres_virtual)
      ∧ pixel_index (init_graphics LINUX_ICANON LINUX_ECHO worldWide).1.g 0 1
          = 0 + 1 * worldWide.fb_var.xres_virtual
      ∧ ¬ ((0 : Int) + 1 * worldWide.fb_var.xres_virtual
          < Int.tdiv (init_graphics LINUX_ICANON LINUX_ECHO worldWide).1.g.size 2)) := by
  decide

/-- The terminal flag word after `init_graphics` followed by `exit_graphics`. -/
theorem init_exit_lflag (ICANON ECHO : Nat) (w : World) :
    (exit_graphics ICANON ECHO (init_graphics ICANON ECHO w).1
        (init_graphics ICANON ECHO w).2).2.tty.c_lflag
      = ((((w.tty.c_lflag &&& u32_not ICANON) &&& u32_not ECHO) ||| ECHO) % 2 ^ 32 ||| ICANON)
          % 2 ^ 32 :=
  rfl

/-- C14, on the code: `exit_graphics` does not write back the flag word that
`init_graphics` read; it reads the current word and sets `ECHO` and `ICANON`.
With the Linux masks both flags are set after `init_graphics; exit_graphics`
whatever the initial word, and from the initial word 3 (`ISIG | ICANON`, echo
off) the final word is 11, not 3. -/
theorem init_exit_forces_echo (w : World) :
    ((exit_graphics LINUX_ICANON LINUX_ECHO (init_graphics LINUX_ICANON LINUX_ECHO w).1
        (init_graphics LINUX_ICANON LINUX_ECHO w).2).2.tty.c_lflag.testBit 3 = true
      ∧ (exit_graphics LINUX_ICANON LINUX_ECHO (init_graphics LINUX_ICANON LINUX_ECHO w).1
        (init_graphics LINUX_ICANON LINUX_ECHO w).2).2.tty.c_lflag.testBit 1 = true)
    ∧ (exit_graphics LINUX_ICANON LINUX_ECHO
        (init_graphics LINUX_ICANON LINUX_ECHO (worldVga 3)).1
        (init_graphics LINUX_ICANON LINUX_ECHO (worldVga 3)).2).2.tty.c_lflag = 11
    ∧ (worldVga 3).tty.c_lflag = 3 := by
  refine ⟨⟨?_, ?_⟩, by decide, rfl⟩
  · rw [init_exit_lflag, Nat.testBit_mod_two_pow, Nat.testBit_or, Nat.testBit_mod_two_pow,
      Nat.testBit_or]
    have h : LINUX_ECHO.testBit 3 = true := by decide
    simp [h]
  · rw [init_exit_lflag, Nat.testBit_mod_two_pow, Nat.testBit_or]
    have h : LINUX_ICANON.testBit 1 = true := by decide
    simp [h]

/-- C15: when `select` returns 1 and `read` delivers a byte, `getkey` returns
that byte; for every other result of `select` (0, -1, ...) `getkey` does not
call `read` and returns the newline character. -/
theorem getkey_result (x : Int) (rd : Option Char) (c : Char) :
    getkey 1 (some c) = (c, true) ∧ (x ≠ 1 → getkey x rd = ('\n', false)) := by
  constructor
  · rfl
  · intro h
    unfold getkey
    rw [if_neg h]

/-- Witness for C15: `select` returns 0 (timeout) while a byte is pending. -/
theorem getkey_result_witness :
    (0 : Int) ≠ 1 ∧ getkey 0 (some 'a') = ('\n', false) :=
  ⟨by decide, (getkey_result 0 (some 'a') 'a').2 (by decide)⟩

/-- C17, on the code: the colour set by `'r'` has zero green and blue fields,
but the colour set by `'g'` (`RGB(0,255,0)` = 0x1FE0) has red field 3 and the
colour set by `'b'` (`RGB(0,0,255)` = 0x00FF) has green field 7: the channel
value 255 does not fit the 6-bit and 5-bit fields. -/
theorem demo_colour_fields :
    ((main_key 'r' main_init).1.color = 0xF800
      ∧ green_field (main_key 'r' main_init).1.color = 0
      ∧ blue_field (main_key 'r' main_init).1.color = 0)
    ∧ ((main_key 'g' main_init).1.color = 0x1FE0
      ∧ red_field (main_key 'g' main_init).1.color = 3
      ∧ blue_field (main_key 'g' main_init).1.color = 0)
    ∧ ((main_key 'b' main_init).1.color = 0x00FF
      ∧ red_field (main_key 'b' main_init).1.color = 0
      ∧ green_field (main_key 'b' main_init).1.color = 7) := by
  decide

/-! ## The error term of `draw_line` -/

theorem draw_pixel_out_of_range (g : Globals) (m : Mem) (img : Ptr) {x y : Int} (c : Nat)
    (hx : InIntRange x) (hy : InIntRange y)
    (h : ¬ (0 ≤ x ∧ x < (g.varScreenInfo.xres_virtual : Int) ∧ 0 ≤ y
      ∧ y < (g.varScreenInfo.yres_virtual : Int))) :
    draw_pixel g m img x y c = m := by
  unfold draw_pixel
  rw [if_pos]
  rw [draw_pixel_check_iff g hx hy]
  omega

/-- A cell changed by one call of `draw_pixel` is the cell of its in-range
point, and holds the colour. -/
theorem draw_pixel_changed (g : Globals) (m : Mem) (img : Ptr) {x y : Int} (c : Nat) (a : Ptr)
    (hx : InIntRange x) (hy : InIntRange y) (h : draw_pixel g m img x y c a ≠ m a) :
    draw_pixel g m img x y c a = c
      ∧ 0 ≤ x ∧ x < (g.varScreenInfo.xres_virtual : Int) ∧ 0 ≤ y
      ∧ y < (g.varScreenInfo.yres_virtual : Int) ∧ a = img + pixel_index g x y := by
  by_cases hr : 0 ≤ x ∧ x < (g.varScreenInfo.xres_virtual : Int) ∧ 0 ≤ y
      ∧ y < (g.varScreenInfo.yres_virtual : Int)
  · obtain ⟨h1, h2, h3, h4⟩ := hr
    rw [draw_pixel_in_range g m img c h1 h2 h3 h4 hx hy] at h ⊢
    by_cases ha : a = img + pixel_index g x y
    · rw [ha, store_same]
      exact ⟨rfl, h1, h2, h3, h4, rfl⟩
    · rw [store_other _ _ ha] at h
      exact absurd rfl h
  · rw [draw_pixel_out_of_range g m img c hx hy hr] at h
    exact absurd rfl h

/-- A cell changed by the calls of `plot_all` is the cell of an in-range point
of the sequence, and holds the colour. -/
theorem plot_all_changed (g : Globals) (img : Ptr) (c : Nat) (pts : List (Int × Int)) :
    ∀ (m : Mem) (a : Ptr), (∀ p : Int × Int, p ∈ pts → InIntRange p.1 ∧ InIntRange p.2) →
      plot_all g img c m pts a ≠ m a →
      plot_all g img c m pts a = c
        ∧ ∃ p : Int × Int, p ∈ pts ∧ 0 ≤ p.1 ∧ p.1 < (g.varScreenInfo.xres_virtual : Int)
            ∧ 0 ≤ p.2 ∧ p.2 < (g.varScreenInfo.yres_virtual : Int)
            ∧ a = img + pixel_index g p.1 p.2 := by
  induction pts with
  | nil => intro m a _ h; exact absurd rfl h
  | cons q pts ih =>
    intro m a hint h
    have hq := hint q (List.mem_cons_self _ _)
    have hrest : ∀ p : Int × Int, p ∈ pts → InIntRange p.1 ∧ InIntRange p.2 :=
      fun p hp => hint p (List.mem_cons_of_mem _ hp)
    have hstep : plot_all g img c m (q :: pts) a
        = plot_all g img c (draw_pixel g m img q.1 q.2 c) pts a := rfl
    rw [hstep] at h ⊢
    by_cases hsame : plot_all g img c (draw_pixel g m img q.1 q.2 c) pts a
        = draw_pixel g m img q.1 q.2 c a
    · rw [hsame] at h ⊢
      obtain ⟨e, h1, h2, h3, h4, h5⟩ := draw_pixel_changed g m img c a hq.1 hq.2 h
      exact ⟨e, q, List.mem_cons_self _ _, h1, h2, h3, h4, h5⟩
    · obtain ⟨e, p, hp, hrange⟩ := ih _ a hrest hsame
      exact ⟨e, p, List.mem_cons_of_mem _ hp, hrange⟩

/-- Every plotted point lies in the bounding box of the endpoints. -/
theorem line_points_in_box {x0 y0 x1 y1 : Int} {p : Int × Int}
    (hp : p ∈ line_points x0 y0 x1 y1) :
    (min x0 x1 ≤ p.1 ∧ p.1 ≤ max x0 x1) ∧ (min y0 y1 ≤ p.2 ∧ p.2 ≤ max y0 y1) := by
  obtain ⟨k, hk⟩ := List.getElem?_of_mem hp
  obtain ⟨hk1, rfl⟩ := line_points_get_some hk
  obtain ⟨i, j, hi0, hi1, hj0, hj1, hx, hy, -, -, -⟩ := math_vars_inv x0 y0 x1 y1 k hk1
  show (_ ≤ (math_vars x0 y0 x1 y1 k).x0 ∧ (math_vars x0 y0 x1 y1 k).x0 ≤ _)
    ∧ (_ ≤ (math_vars x0 y0 x1 y1 k).y0 ∧ (math_vars x0 y0 x1 y1 k).y0 ≤ _)
  rw [hx, hy]
  exact ⟨axis_in_box x0 x1 hi0 hi1, axis_in_box y0 y1 hj0 hj1⟩

theorem line_points_int {x0 y0 x1 y1 : Int} (hx0 : InIntRange x0) (hy0 : InIntRange y0)
    (hx1 : InIntRange x1) (hy1 : InIntRange y1) {p : Int × Int}
    (hp : p ∈ line_points x0 y0 x1 y1) : InIntRange p.1 ∧ InIntRange p.2 := by
  obtain ⟨⟨a1, a2⟩, ⟨b1, b2⟩⟩ := line_points_in_box hp
  obtain ⟨c1, c2⟩ := hx0
  obtain ⟨c3, c4⟩ := hy0
  obtain ⟨c5, c6⟩ := hx1
  obtain ⟨c7, c8⟩ := hy1
  unfold InIntRange
  refine ⟨⟨?_, ?_⟩, ⟨?_, ?_⟩⟩ <;> omega

theorem draw_rows_eq_grid_loop (g : Globals) (line_fuel : Nat) (buffer : Ptr) (offset : Int)
    (color : Nat) :
    ∀ (fuel : Nat) (i : Int) (m : Mem),
      draw_rows g line_fuel buffer offset color fuel i m
        = grid_loop (fun i m => draw_line g line_fuel m buffer 0 i 639 i color) 480 offset
            fuel i m := by
  intro fuel
  induction fuel with
  | zero => intro i m; rfl
  | succ f ih =>
    intro i m
    rw [draw_rows, grid_loop]
    split_ifs
    · cases h : draw_line g line_fuel m buffer 0 i 639 i color with
      | none => rfl
      | some m1 => exact ih _ _
    · rfl

theorem draw_cols_eq_grid_loop (g : Globals) (line_fuel : Nat) (buffer : Ptr) (offset : Int)
    (color : Nat) :
    ∀ (fuel : Nat) (i : Int) (m : Mem),
      draw_cols g line_fuel buffer offset color fuel i m
        = grid_loop (fun i m => draw_line g line_fuel m buffer i 0 i 479 color) 640 offset
            fuel i m := by
  intro fuel
  induction fuel with
  | zero => intro i m; rfl
  | succ f ih =>
    intro i m
    rw [draw_cols, grid_loop]
    split_ifs
    · cases h : draw_line g line_fuel m buffer i 0 i 479 color with
      | none => rfl
      | some m1 => exact ih _ _
    · rfl

/-- A loop of `draw` whose body paints the cells `S i` with `c` and leaves the
others: with enough fuel it returns, the cells of the lines `i, i + offset,
...` below the bound hold `c`, and the cells on none of these lines are
unchanged. -/
theorem grid_loop_spec (body : Int → Mem → Option Mem) (S : Int → Ptr → Prop) (c : Nat)
    (bound offset : Int) (hoff : 1 ≤ offset)
    (hbody : ∀ (i : Int) (m : Mem), 0 ≤ i → i < bound →
      ∃ m1 : Mem, body i m = some m1 ∧ (∀ a, S i a → m1 a = c)
        ∧ (∀ a, ¬ S i a → m1 a = m a) ∧ (∀ a, m a = c → m1 a = c)) :
    ∀ (fuel : Nat) (i : Int) (m : Mem), 0 ≤ i → (bound - i).toNat + 1 ≤ fuel →
      ∃ m' : Mem, grid_loop body bound offset fuel i m = some m'
        ∧ (∀ (j : Int) (a : Ptr), i ≤ j → j < bound → offset ∣ (j - i) → S j a → m' a = c)
        ∧ (∀ a : Ptr, (∀ j : Int, i ≤ j → j < bound → offset ∣ (j - i) → ¬ S j a) → m' a = m a)
        ∧ (∀ a : Ptr, m a = c → m' a = c) := by
  intro fuel
  induction fuel with
  | zero => intro i m _ h; omega
  | succ f ih =>
    intro i m hi hfuel
    rw [grid_loop]
    by_cases hlt : i < bound
    · rw [if_pos hlt]
      obtain ⟨m1, hb, hE, hF, hK⟩ := hbody i m hi hlt
      rw [hb]
      obtain ⟨m', hrun, ha, hb', hk⟩ := ih (i + offset) m1 (by omega) (by omega)
      refine ⟨m', hrun, ?_, ?_, ?_⟩
      · intro j a hij hjb hdvd hS
        rcases eq_or_lt_of_le hij with rfl | hlt'
        · exact hk a (hE a hS)
        · have hpos : 0 < j - i := by omega
          have hle : offset ≤ j - i := Int.le_of_dvd hpos hdvd
          have hd2 : offset ∣ (j - (i + offset)) := by
            have : j - (i + offset) = (j - i) - offset := by ring
            rw [this]
            exact dvd_sub hdvd (dvd_refl offset)
          exact ha j a (by omega) hjb hd2 hS
      · intro a hnot
        rw [hb' a ?_, hF a (hnot i (le_refl i) hlt (by simp))]
        intro j hj hjb hdvd
        have hd2 : offset ∣ (j - i) := by
          have : j - i = (j - (i + offset)) + offset := by ring
          rw [this]
          exact dvd_add hdvd (dvd_refl offset)
        exact hnot j (by omega) hjb hd2
      · intro a hm
        exact hk a (hK a hm)
    · rw [if_neg hlt]
      refine ⟨m, rfl, ?_, ?_, ?_⟩
      · intro j a hij hjb; omega
      · intro a _; rfl
      · intro a h; exact h

theorem mem_line_points_horizontal (x0 x1 y : Int) (p : Int × Int) :
    p ∈ line_points x0 y x1 y ↔ (p.2 = y ∧ min x0 x1 ≤ p.1 ∧ p.1 ≤ max x0 x1) := by
  rw [line_points_horizontal, List.mem_map]
  constructor
  · rintro ⟨k, hk, rfl⟩
    have := (axis_positions x0 x1 (x0 + line_sign x0 x1 * (k : Int))).mp
      ⟨k, by have := List.mem_range.mp hk; omega, rfl⟩
    exact ⟨rfl, this⟩
  · rintro ⟨h1, h2⟩
    obtain ⟨k, hk, hk2⟩ := (axis_positions x0 x1 p.1).mpr h2
    refine ⟨k, List.mem_range.mpr (by omega), ?_⟩
    rw [← hk2, ← h1]

theorem mem_line_points_vertical (x y0 y1 : Int) (p : Int × Int) :
    p ∈ line_points x y0 x y1 ↔ (p.1 = x ∧ min y0 y1 ≤ p.2 ∧ p.2 ≤ max y0 y1) := by
  rw [line_points_vertical, List.mem_map]
  constructor
  · rintro ⟨k, hk, rfl⟩
    have := (axis_positions y0 y1 (y0 + line_sign y0 y1 * (k : Int))).mp
      ⟨k, by have := List.mem_range.mp hk; omega, rfl⟩
    exact ⟨rfl, this⟩
  · rintro ⟨h1, h2⟩
    obtain ⟨k, hk, hk2⟩ := (axis_positions y0 y1 p.2).mpr h2
    refine ⟨k, List.mem_range.mpr (by omega), ?_⟩
    rw [← hk2, ← h1]

/-- The cell of an in-range pixel of a 640 x 480 geometry after `plot_all`. -/
theorem plot_all_vga_mem (g : Globals) (hW : g.varScreenInfo.xres_virtual = 640)
    (hH : g.varScreenInfo.yres_virtual = 480) (buf : Ptr) (c : Nat) (m : Mem)
    (pts : List (Int × Int)) {x y : Int} (hp : (x, y) ∈ pts)
    (hx0 : 0 ≤ x) (hx1 : x < 640) (hy0 : 0 ≤ y) (hy1 : y < 480) :
    plot_all g buf c m pts (buf + (x + y * 640)) = c := by
  have hx : InIntRange x := by unfold InIntRange; omega
  have hy : InIntRange y := by unfold InIntRange; omega
  have h := plot_all_mem g buf c pts m (x, y) hp hx0 (by rw [hW]; exact_mod_cast hx1) hy0
    (by rw [hH]; exact_mod_cast hy1) hx hy
  have hi := pixel_index_exact g hx0 hy0 (by rw [hW]; push_cast; omega) hx hy
  rw [hW] at hi
  push_cast at hi
  rw [← hi]
  exact h

/-- A cell changed by `plot_all` on a 640 x 480 geometry is the cell of a
point of the sequence that is in range. -/
theorem plot_all_vga_changed (g : Globals) (hW : g.varScreenInfo.xres_virtual = 640)
    (hH : g.varScreenInfo.yres_virtual = 480) (buf : Ptr) (c : Nat) (m : Mem)
    (pts : List (Int × Int)) (hint : ∀ p : Int × Int, p ∈ pts → InIntRange p.1 ∧ InIntRange p.2)
    (a : Ptr) (h : plot_all g buf c m pts a ≠ m a) :
    ∃ p : Int × Int, p ∈ pts ∧ 0 ≤ p.1 ∧ p.1 < 640 ∧ 0 ≤ p.2 ∧ p.2 < 480
      ∧ a = buf + (p.1 + p.2 * 640) := by
  obtain ⟨-, p, hp, h1, h2, h3, h4, h5⟩ := plot_all_changed g buf c pts m a hint h
  rw [hW] at h2
  rw [hH] at h4
  have hi := pixel_index_exact g h1 h3 (by rw [hW]; push_cast; omega) (hint p hp).1 (hint p hp).2
  rw [hW] at hi
  push_cast at hi h2 h4
  rw [hi] at h5
  exact ⟨p, hp, h1, h2, h3, h4, h5⟩

/-- The call `draw_line(buffer, 0, i, 639, i, color)` of `draw` on a 640 x 480
geometry, for a row `0 <= i < 480`. -/
theorem draw_row_effect (g : Globals) (hW : g.varScreenInfo.xres_virtual = 640)
    (hH : g.varScreenInfo.yres_virtual = 480) (buf : Ptr) (c : Nat) (extra : Nat)
    (i : Int) (m : Mem) (h0 : 0 ≤ i) (h1 : i < 480) :
    ∃ m1 : Mem, draw_line g (640 + extra) m buf 0 i 639 i c = some m1
      ∧ (∀ a : Ptr, (∃ x : Int, 0 ≤ x ∧ x < 640 ∧ a = buf + (x + i * 640)) → m1 a = c)
      ∧ (∀ a : Ptr, ¬ (∃ x : Int, 0 ≤ x ∧ x < 640 ∧ a = buf + (x + i * 640)) → m1 a = m a)
      ∧ (∀ a : Ptr, m a = c → m1 a = c) := by
  have hl : line_len 0 i 639 i = 639 := by
    rw [line_len_horizontal]; decide
  have hfuel : 640 + extra = line_len 0 i 639 i + 1 + extra := by rw [hl]
  have hint : ∀ p : Int × Int, p ∈ line_points 0 i 639 i → InIntRange p.1 ∧ InIntRange p.2 :=
    fun p hp => line_points_int (by decide) (by unfold InIntRange; omega) (by decide)
      (by unfold InIntRange; omega) hp
  have hfit : line_fits 0 i 639 i := by
    refine ⟨by decide, ⟨by omega, by omega⟩, by decide, ⟨by omega, by omega⟩, ?_⟩
    rw [sub_self, abs_zero]; norm_num
  rw [hfuel, draw_line_eq _ _ _ _ _ _ _ _ _ hfit]
  refine ⟨_, rfl, ?_, ?_, ?_⟩
  · rintro a ⟨x, hx0, hx1, rfl⟩
    have hp : (x, i) ∈ line_points 0 i 639 i :=
      (mem_line_points_horizontal 0 639 i (x, i)).mpr ⟨rfl, by simp; omega, by simp; omega⟩
    exact plot_all_vga_mem g hW hH buf c m _ hp hx0 hx1 h0 h1
  · intro a hS
    by_contra hne
    obtain ⟨p, hp, p1, p2, p3, p4, p5⟩ := plot_all_vga_changed g hW hH buf c m _ hint a hne
    obtain ⟨e, -, -⟩ := (mem_line_points_horizontal 0 639 i p).mp hp
    rw [e] at p5
    exact hS ⟨p.1, p1, p2, p5⟩
  · intro a ha
    exact plot_all_keeps g buf c _ m a ha

/-- The call `draw_line(buffer, i, 0, i, 479, color)` of `draw` on a 640 x 480
geometry, for a column `0 <= i < 640`. -/
theorem draw_col_effect (g : Globals) (hW : g.varScreenInfo.xres_virtual = 640)
    (hH : g.varScreenInfo.yres_virtual = 480) (buf : Ptr) (c : Nat) (extra : Nat)
    (i : Int) (m : Mem) (h0 : 0 ≤ i) (h1 : i < 640) :
    ∃ m1 : Mem, draw_line g (640 + extra) m buf i 0 i 479 c = some m1
      ∧ (∀ a : Ptr, (∃ y : Int, 0 ≤ y ∧ y < 480 ∧ a = buf + (i + y * 640)) → m1 a = c)
      ∧ (∀ a : Ptr, ¬ (∃ y : Int, 0 ≤ y ∧ y < 480 ∧ a = buf + (i + y * 640)) → m1 a = m a)
      ∧ (∀ a : Ptr, m a = c → m1 a = c) := by
  have hl : line_len i 0 i 479 = 479 := by
    rw [line_len_vertical]; decide
  have hfuel : 640 + extra = line_len i 0 i 479 + 1 + (160 + extra) := by rw [hl]; omega
  have hint : ∀ p : Int × Int, p ∈ line_points i 0 i 479 → InIntRange p.1 ∧ InIntRange p.2 :=
    fun p hp => line_points_int (by unfold InIntRange; omega) (by decide)
      (by unfold InIntRange; omega) (by decide) hp
  have hfit : line_fits i 0 i 479 := by
    refine ⟨⟨by omega, by omega⟩, by decide, ⟨by omega, by omega⟩, by decide, ?_⟩
    rw [sub_self, abs_zero]; norm_num
  rw [hfuel, draw_line_eq _ _ _ _ _ _ _ _ _ hfit]
  refine ⟨_, rfl, ?_, ?_, ?_⟩
  · rintro a ⟨y, hy0, hy1, rfl⟩
    have hp : (i, y) ∈ line_points i 0 i 479 :=
      (mem_line_points_vertical i 0 479 (i, y)).mpr ⟨rfl, by simp; omega, by simp; omega⟩
    exact plot_all_vga_mem g hW hH buf c m _ hp h0 h1 hy0 hy1
  · intro a hS
    by_contra hne
    obtain ⟨p, hp, p1, p2, p3, p4, p5⟩ := plot_all_vga_changed g hW hH buf c m _ hint a hne
    obtain ⟨e, -, -⟩ := (mem_line_points_vertical i 0 479 p).mp hp
    rw [e] at p5
    exact hS ⟨p.2, p3, p4, p5⟩
  · intro a ha
    exact plot_all_keeps g buf c _ m a ha

/-- The effect of `draw(buffer, offset, color)` on a 640 x 480 geometry, for
a positive `offset`: it returns, and the pixel `(x, y)` of the buffer holds the
colour when `offset` divides `x` or `y`, and its previous value otherwise. -/
theorem draw_grid (g : Globals) (hW : g.varScreenInfo.xres_virtual = 640)
    (hH : g.varScreenInfo.yres_virtual = 480) (buf : Ptr) (c : Nat) (extra : Nat)
    (offset : Int) (hoff : 1 ≤ offset) (m : Mem) :
    ∃ m2 : Mem, draw g (641 + extra) m buf offset c = some m2
      ∧ ∀ x y : Int, 0 ≤ x → x < 640 → 0 ≤ y → y < 480 →
          m2 (buf + (x + y * 640))
            = if offset ∣ x ∨ offset ∣ y then c else m (buf + (x + y * 640)) := by
  have hF : 641 + extra = 640 + (extra + 1) := by omega
  rw [hF]
  have hf1 : ((480 : Int) - 0).toNat + 1 ≤ 640 + (extra + 1) := by
    have : ((480 : Int) - 0).toNat = 480 := by decide
    omega
  have hf2 : ((640 : Int) - 0).toNat + 1 ≤ 640 + (extra + 1) := by
    have : ((640 : Int) - 0).toNat = 640 := by decide
    omega
  obtain ⟨m1, hrun1, ha1, hb1, -⟩ :=
    grid_loop_spec (fun i m => draw_line g (640 + (extra + 1)) m buf 0 i 639 i c)
      (fun i a => ∃ x : Int, 0 ≤ x ∧ x < 640 ∧ a = buf + (x + i * 640)) c 480 offset hoff
      (fun i m h0 h1 => draw_row_effect g hW hH buf c (extra + 1) i m h0 h1)
      (640 + (extra + 1)) 0 m (le_refl 0) hf1
  obtain ⟨m2, hrun2, ha2, hb2, hk2⟩ :=
    grid_loop_spec (fun i m => draw_line g (640 + (extra + 1)) m buf i 0 i 479 c)
      (fun i a => ∃ y : Int, 0 ≤ y ∧ y < 480 ∧ a = buf + (i + y * 640)) c 640 offset hoff
      (fun i m h0 h1 => draw_col_effect g hW hH buf c (extra + 1) i m h0 h1)
      (640 + (extra + 1)) 0 m1 (le_refl 0) hf2
  refine ⟨m2, ?_, ?_⟩
  · unfold draw
    rw [draw_rows_eq_grid_loop, hrun1]
    show draw_cols g (640 + (extra + 1)) buf offset c (640 + (extra + 1)) 0 m1 = some m2
    rw [draw_cols_eq_grid_loop, hrun2]
  · intro x y hx0 hx1 hy0 hy1
    by_cases hx : offset ∣ x
    · rw [if_pos (Or.inl hx)]
      exact ha2 x _ hx0 hx1 (by simpa using hx) ⟨y, hy0, hy1, rfl⟩
    · by_cases hy : offset ∣ y
      · rw [if_pos (Or.inr hy)]
        exact hk2 _ (ha1 y _ hy0 hy1 (by simpa using hy) ⟨x, hx0, hx1, rfl⟩)
      · rw [if_neg (fun h => h.elim hx hy)]
        have h2 : m2 (buf + (x + y * 640)) = m1 (buf + (x + y * 640)) := by
          apply hb2
          rintro j hj0 hj1 hdvd ⟨y', hy0', hy1', he⟩
          have e : @Eq Int (x + y * 640) (j + y' * 640) := add_left_cancel he
          have hjx : j = x := by omega
          rw [hjx] at hdvd
          exact hx (by simpa using hdvd)
        have h1 : m1 (buf + (x + y * 640)) = m (buf + (x + y * 640)) := by
          apply hb1
          rintro j hj0 hj1 hdvd ⟨x', hx0', hx1', he⟩
          have e : @Eq Int (x + y * 640) (x' + j * 640) := add_left_cancel he
          have hjy : j = y := by omega
          rw [hjy] at hdvd
          exact hy (by simpa using hdvd)
        rw [h2, h1]

/-- C18: on a device reporting 640 x 480 with stride 1280, with an off-screen
surface that shares no cell with the device surface and is all zero, for every
`offset` in {10, 20, ..., 100} and every colour `c`: `draw(buf, offset, c)`
returns; after `blit(buf)` the pixel `(x, y)` of the device surface is `c` when
`x mod offset = 0` or `y mod offset = 0` and 0 otherwise, for `0 <= x < 640`,
`0 <= y < 480`; after a following `clear_screen(buf)` it is 0. -/
theorem draw_blit_clear_grid (ICANON ECHO : Nat) (w : World) (buf : Ptr) (offset : Int)
    (c : Nat) (extra : Nat)
    (hW : w.fb_var.xres_virtual = 640) (hH : w.fb_var.yres_virtual = 480)
    (hL : w.fb_fix.line_length = 1280)
    (hoff : 10 ≤ offset ∧ offset ≤ 100 ∧ offset % 10 = 0)
    (hdis : ∀ j k : Int, 0 ≤ j → j < 307200 → 0 ≤ k → k < 307200 → w.fb_map + j ≠ buf + k)
    (hzero : ∀ i : Int, 0 ≤ i → i < 307200 → w.mem (buf + i) = 0) :
    ∃ m1 : Mem,
      draw (init_graphics ICANON ECHO w).1.g (641 + extra) w.mem buf offset c = some m1
      ∧ ∀ x y : Int, 0 ≤ x → x < 640 → 0 ≤ y → y < 480 →
          blit (init_graphics ICANON ECHO w).1.g m1 buf (w.fb_map + (x + y * 640))
              = (if x % offset = 0 ∨ y % offset = 0 then c else 0)
          ∧ clear_screen (init_graphics ICANON ECHO w).1.g
              (blit (init_graphics ICANON ECHO w).1.g m1 buf) buf
              (w.fb_map + (x + y * 640)) = 0 := by
  have hgW : (init_graphics ICANON ECHO w).1.g.varScreenInfo.xres_virtual = 640 := hW
  have hgH : (init_graphics ICANON ECHO w).1.g.varScreenInfo.yres_virtual = 480 := hH
  have hgF : (init_graphics ICANON ECHO w).1.g.frameBuffer = w.fb_map := rfl
  have hgS : Int.tdiv (init_graphics ICANON ECHO w).1.g.size 2 = 307200 := by
    show Int.tdiv (toInt32 (w.fb_var.yres_virtual * w.fb_fix.line_length)) 2 = 307200
    rw [hH, hL]; decide
  obtain ⟨m1, hrun, hgrid⟩ := draw_grid _ hgW hgH buf c extra offset (by omega) w.mem
  refine ⟨m1, hrun, ?_⟩
  intro x y hx0 hx1 hy0 hy1
  have hdis' : ∀ j k : Int, 0 ≤ j → j < Int.tdiv (init_graphics ICANON ECHO w).1.g.size 2 →
      0 ≤ k → k < Int.tdiv (init_graphics ICANON ECHO w).1.g.size 2 →
      (init_graphics ICANON ECHO w).1.g.frameBuffer + j ≠ buf + k := by
    rw [hgS, hgF]; exact hdis
  have hi0 : 0 ≤ x + y * 640 := by omega
  have hi1 : x + y * 640 < Int.tdiv (init_graphics ICANON ECHO w).1.g.size 2 := by
    rw [hgS]; omega
  constructor
  · obtain ⟨hcopy, -⟩ := blit_loop_spec _ buf hdis' _ 0 m1 (le_refl 0) rfl
    have h := hcopy (x + y * 640) hi0 hi1
    rw [hgF] at h
    show blit_loop _ buf 0 m1 _ = _
    rw [h, hgrid x y hx0 hx1 hy0 hy1, hzero _ hi0 (by omega)]
    simp only [Int.dvd_iff_emod_eq_zero]
  · have h := (clear_screen_loop_clears (init_graphics ICANON ECHO w).1.g buf _ 0
      (blit (init_graphics ICANON ECHO w).1.g m1 buf) rfl (x + y * 640) hi0 hi1).1
    rw [hgF] at h
    exact h

/-- On the device of `worldVga` a surface at cell 1000000 shares no cell with
the device surface. -/
theorem worldVga_surfaces_disjoint (flags : Nat) :
    ∀ j k : Int, 0 ≤ j → j < 307200 → 0 ≤ k → k < 307200 →
      (worldVga flags).fb_map + j ≠ 1000000 + k := by
  intro j k _ hj hk _ h
  have h' : (0 : Int) + j = 1000000 + k := h
  omega

/-- Witness for C18: the scenario of the demo at start-up, spacing 10 and
colour `RGB(255, 0, 0)`, with the off-screen surface at cell 1000000. -/
theorem draw_blit_clear_grid_witness :
    ((worldVga 0).fb_var.xres_virtual = 640 ∧ (worldVga 0).fb_var.yres_virtual = 480
      ∧ (worldVga 0).fb_fix.line_length = 1280
      ∧ ((10 : Int) ≤ 10 ∧ (10 : Int) ≤ 100 ∧ (10 : Int) % 10 = 0)
      ∧ (∀ j k : Int, 0 ≤ j → j < 307200 → 0 ≤ k → k < 307200 →
          (worldVga 0).fb_map + j ≠ 1000000 + k)
      ∧ (∀ i : Int, 0 ≤ i → i < 307200 → (worldVga 0).mem (1000000 + i) = 0))
    ∧ ∃ m1 : Mem,
      draw (init_graphics LINUX_ICANON LINUX_ECHO (worldVga 0)).1.g (641 + 0) (worldVga 0).mem
          1000000 10 (RGB 255 0 0) = some m1
      ∧ ∀ x y : Int, 0 ≤ x → x < 640 → 0 ≤ y → y < 480 →
          blit (init_graphics LINUX_ICANON LINUX_ECHO (worldVga 0)).1.g m1 1000000
              ((worldVga 0).fb_map + (x + y * 640))
              = (if x % 10 = 0 ∨ y % 10 = 0 then RGB 255 0 0 else 0)
          ∧ clear_screen (init_graphics LINUX_ICANON LINUX_ECHO (worldVga 0)).1.g
              (blit (init_graphics LINUX_ICANON LINUX_ECHO (worldVga 0)).1.g m1 1000000) 1000000
              ((worldVga 0).fb_map + (x + y * 640)) = 0 :=
  ⟨⟨rfl, rfl, rfl, by decide, worldVga_surfaces_disjoint 0, fun _ _ _ => rfl⟩,
    draw_blit_clear_grid LINUX_ICANON LINUX_ECHO (worldVga 0) 1000000 10 (RGB 255 0 0) 0
      rfl rfl rfl (by decide) (worldVga_surfaces_disjoint 0) (fun _ _ _ => rfl)⟩

end Graphics
